import Mathlib

/-!
# Sorting benchmark harness: a verification development

A shallow embedding of `SortFunc/sortFunc.js`, `SortClasses/sortClasses.js` and `main.js`.

Conventions of the embedding.

* A JavaScript array is a `List`; the in-place algorithms are written in state-passing style:
  every loop takes the current contents of the array it mutates and returns the new contents.
* An index read `arr[i]` and an index write `arr[k] = v` are checked: an index outside
  `0 .. length - 1` makes the whole computation `none`.  Loops carry a fuel counter that the
  entry point sets from the lengths of its arguments; running out of fuel is `none` too.
  The theorems show that neither happens.
* Array elements are compared through `key : α → Int`.  Arrays of integers are the instance
  `α = Int`, `key = id`; arrays of `(key, tag)` pairs are `α = Int × τ`, `key = Prod.fst`.
-/

namespace SortBench

variable {α : Type}

/-! ## Array accesses -/

/-- Checked index read `arr[i]`. -/
def readAt (arr : List α) (i : Nat) : Option α :=
  arr[i]?

/-- Checked index write `arr[k] = v`. -/
def writeAt (arr : List α) (k : Nat) (v : α) : Option (List α) :=
  if k < arr.length then some (arr.set k v) else none

/-! ## `sortFunc.js` -/

/-- First loop of `merge` (sortFunc.js, lines 8-14):
`while (i < leftHalf.length && j < rightHalf.length)`, returning `arr`, `i`, `j`, `k`. -/
def mergeLoop (key : α → Int) (leftHalf rightHalf : List α) :
    Nat → List α → Nat → Nat → Nat → Option (List α × Nat × Nat × Nat)
  | 0, _, _, _, _ => none
  | fuel + 1, arr, i, j, k =>
    if i < leftHalf.length ∧ j < rightHalf.length then
      (readAt leftHalf i).bind fun a =>
      (readAt rightHalf j).bind fun b =>
        if key a < key b then
          (writeAt arr k a).bind fun arr1 => mergeLoop key leftHalf rightHalf fuel arr1 (i + 1) j (k + 1)
        else
          (writeAt arr k b).bind fun arr1 => mergeLoop key leftHalf rightHalf fuel arr1 i (j + 1) (k + 1)
    else some (arr, i, j, k)

/-- The two copy loops of `merge` (sortFunc.js, lines 16 and 17):
`while (i < src.length) arr[k++] = src[i++]`, returning `arr` and `k`. -/
def copyLoop (src : List α) : Nat → List α → Nat → Nat → Option (List α × Nat)
  | 0, _, _, _ => none
  | fuel + 1, arr, i, k =>
    if i < src.length then
      (readAt src i).bind fun a =>
      (writeAt arr k a).bind fun arr1 => copyLoop src fuel arr1 (i + 1) (k + 1)
    else some (arr, k)

/-- Function `merge(arr, leftHalf, rightHalf)` of sortFunc.js; the result is `arr` afterwards. -/
def merge (key : α → Int) (arr leftHalf rightHalf : List α) : Option (List α) :=
  let fuel := leftHalf.length + rightHalf.length + 1
  (mergeLoop key leftHalf rightHalf fuel arr 0 0 0).bind fun (arr1, i, j, k) =>
  (copyLoop leftHalf fuel arr1 i k).bind fun (arr2, k2) =>
  (copyLoop rightHalf fuel arr2 j k2).bind fun (arr3, _) =>
    some arr3

/-- Recursion of `mergeSort` with a bound on its depth. -/
def mergeSortAux (key : α → Int) : Nat → List α → Option (List α)
  | 0, _ => none
  | fuel + 1, arr =>
    if arr.length > 1 then
      let mid := arr.length / 2
      let leftHalf := arr.take mid
      let rightHalf := arr.drop mid
      (mergeSortAux key fuel leftHalf).bind fun leftHalf1 =>
      (mergeSortAux key fuel rightHalf).bind fun rightHalf1 =>
        merge key arr leftHalf1 rightHalf1
    else some arr

/-- Function `mergeSort(arr)` of sortFunc.js; the result is `arr` afterwards. -/
def mergeSort (key : α → Int) (arr : List α) : Option (List α) :=
  mergeSortAux key (arr.length + 1) arr

/-- Inner loop of `insertionSort` followed by the write of the key (sortFunc.js, lines 39-43):
`while (j >= 0 && arr[j] > key) { arr[j + 1] = arr[j]; j--; }  arr[j + 1] = key`.
The counter `j` runs over `-1 .. i - 1`; the first argument is `j + 1`, a natural number. -/
def insertionInner (key : α → Int) (x : α) : Nat → List α → Option (List α)
  | 0, arr => writeAt arr 0 x
  | j + 1, arr =>
    (readAt arr j).bind fun a =>
      if key a > key x then
        (writeAt arr (j + 1) a).bind fun arr1 => insertionInner key x j arr1
      else writeAt arr (j + 1) x

/-- Outer loop of `insertionSort` (sortFunc.js, line 36): `for (...; i < arr.length; i++)`. -/
def insertionOuter (key : α → Int) : Nat → Nat → List α → Option (List α)
  | 0, _, _ => none
  | fuel + 1, i, arr =>
    if i < arr.length then
      (readAt arr i).bind fun x =>
      (insertionInner key x i arr).bind fun arr1 => insertionOuter key fuel (i + 1) arr1
    else some arr

/-- Function `insertionSort(arr)` of sortFunc.js; the result is `arr` afterwards. -/
def insertionSort (key : α → Int) (arr : List α) : Option (List α) :=
  insertionOuter key (arr.length + 1) 1 arr

/-- Host built-in `Array.prototype.sort(compareFn)`: a stable sort that puts `a` before `b`
when `compareFn(a, b) <= 0`. -/
def arraySort (compareFn : α → α → Int) (arr : List α) : List α :=
  arr.insertionSort fun a b => compareFn a b ≤ 0

/-- Function `timSort(arr)` of sortFunc.js: `arr.sort((a, b) => a - b)`. -/
def timSort (arr : List Int) : Option (List Int) :=
  some (arraySort (fun a b => a - b) arr)

/-! ## `sortClasses.js`: the sorting classes -/

/-- First loop of `MergeSort.merge` (sortClasses.js, lines 34-40). -/
def MergeSort.mergeLoop (key : α → Int) (left right : List α) :
    Nat → List α → Nat → Nat → Nat → Option (List α × Nat × Nat × Nat)
  | 0, _, _, _, _ => none
  | fuel + 1, data, i, j, k =>
    if i < left.length ∧ j < right.length then
      (readAt left i).bind fun a =>
      (readAt right j).bind fun b =>
        if key a < key b then
          (writeAt data k a).bind fun data1 => MergeSort.mergeLoop key left right fuel data1 (i + 1) j (k + 1)
        else
          (writeAt data k b).bind fun data1 => MergeSort.mergeLoop key left right fuel data1 i (j + 1) (k + 1)
    else some (data, i, j, k)

/-- The two copy loops of `MergeSort.merge` (sortClasses.js, lines 41 and 42). -/
def MergeSort.copyLoop (src : List α) : Nat → List α → Nat → Nat → Option (List α × Nat)
  | 0, _, _, _ => none
  | fuel + 1, data, i, k =>
    if i < src.length then
      (readAt src i).bind fun a =>
      (writeAt data k a).bind fun data1 => MergeSort.copyLoop src fuel data1 (i + 1) (k + 1)
    else some (data, k)

/-- Method `MergeSort.merge(data, left, right)`; the result is `data` afterwards. -/
def MergeSort.merge (key : α → Int) (data left right : List α) : Option (List α) :=
  let fuel := left.length + right.length + 1
  (MergeSort.mergeLoop key left right fuel data 0 0 0).bind fun (data1, i, j, k) =>
  (MergeSort.copyLoop left fuel data1 i k).bind fun (data2, k2) =>
  (MergeSort.copyLoop right fuel data2 j k2).bind fun (data3, _) =>
    some data3

/-- Recursion of `MergeSort.sort` with a bound on its depth. -/
def MergeSort.sortAux (key : α → Int) : Nat → List α → Option (List α)
  | 0, _ => none
  | fuel + 1, data =>
    if data.length > 1 then
      let mid := data.length / 2
      let left := data.take mid
      let right := data.drop mid
      (MergeSort.sortAux key fuel left).bind fun left1 =>
      (MergeSort.sortAux key fuel right).bind fun right1 =>
        MergeSort.merge key data left1 right1
    else some data

/-- Method `MergeSort.sort(data)`; the result is `data` afterwards. -/
def MergeSort.sort (key : α → Int) (data : List α) : Option (List α) :=
  MergeSort.sortAux key (data.length + 1) data

/-- Inner loop of `InsertionSort.sort` and the write of the key (sortClasses.js, lines 51-55);
the first argument is `j + 1`. -/
def InsertionSort.inner (key : α → Int) (x : α) : Nat → List α → Option (List α)
  | 0, data => writeAt data 0 x
  | j + 1, data =>
    (readAt data j).bind fun a =>
      if key a > key x then
        (writeAt data (j + 1) a).bind fun data1 => InsertionSort.inner key x j data1
      else writeAt data (j + 1) x

/-- Outer loop of `InsertionSort.sort` (sortClasses.js, line 48). -/
def InsertionSort.outer (key : α → Int) : Nat → Nat → List α → Option (List α)
  | 0, _, _ => none
  | fuel + 1, i, data =>
    if i < data.length then
      (readAt data i).bind fun x =>
      (InsertionSort.inner key x i data).bind fun data1 => InsertionSort.outer key fuel (i + 1) data1
    else some data

/-- Method `InsertionSort.sort(data)`; the result is `data` afterwards. -/
def InsertionSort.sort (key : α → Int) (data : List α) : Option (List α) :=
  InsertionSort.outer key (data.length + 1) 1 data

/-- Method `TimSort.sort(data)`: `data.sort((a, b) => a - b)`. -/
def TimSort.sort (data : List Int) : Option (List Int) :=
  some (arraySort (fun a b => a - b) data)

/-! ## `sortClasses.js`: `SortingHandler` -/

/-- Exceptions. -/
inductive JSError
  /-- A `throw new Error(message)` of the program. -/
  | error (message : String)
  /-- A `TypeError` raised by the runtime. -/
  | typeError (message : String)
  /-- An array access outside the bounds inside a sorting method (`none` from a `sort`);
  `Algorithm.sort_spec` shows that it does not occur. -/
  | outOfRange
  deriving DecidableEq, Repr

/-- How a call ends. -/
inductive Completion (β : Type)
  | returned (value : β)
  | thrown (e : JSError)
  deriving DecidableEq, Repr

/-- The three sorting objects built by the constructor of `SortingHandler`. -/
inductive Algorithm
  | mergeSort
  | insertionSort
  | timSort
  deriving DecidableEq, Repr

/-- The `sort` method of each sorting object, on arrays of integers. -/
def Algorithm.sort : Algorithm → List Int → Option (List Int)
  | .mergeSort => MergeSort.sort id
  | .insertionSort => InsertionSort.sort id
  | .timSort => TimSort.sort

/-- The own property names of `Object.prototype`, which every object literal inherits. -/
def objectPrototypeKeys : List String :=
  ["constructor", "__defineGetter__", "__defineSetter__", "hasOwnProperty", "__lookupGetter__",
   "__lookupSetter__", "isPrototypeOf", "propertyIsEnumerable", "toString", "valueOf",
   "__proto__", "toLocaleString"]

/-- The value of a property read `this.algorithms[algorithmName]`. -/
inductive Property
  /-- One of the three own properties of the object literal. -/
  | own (algorithm : Algorithm)
  /-- A member of `Object.prototype`, found through the prototype chain: a function, or for
  `__proto__` the prototype object itself.  It is truthy and has no `sort` method. -/
  | inherited
  /-- No such property. -/
  | undefined
  deriving DecidableEq, Repr

/-- Property read on `this.algorithms`, the object literal of the constructor
(sortClasses.js, lines 68-72). -/
def SortingHandler.algorithms (algorithmName : String) : Property :=
  if algorithmName = "Merge Sort" then .own .mergeSort
  else if algorithmName = "Insertion Sort" then .own .insertionSort
  else if algorithmName = "TimSort" then .own .timSort
  else if algorithmName ∈ objectPrototypeKeys then .inherited
  else .undefined

/-- The arrays that exist at some moment; a reference to an array is its position here. -/
abbrev Heap := List (List Int)

/-- Method `SortingHandler.performSorting(algorithmName, data)` (sortClasses.js, lines 75-83),
with `data` a reference into the heap `h`.  It returns the heap afterwards and the reference
it hands back. -/
def SortingHandler.performSorting (h : Heap) (algorithmName : String) (data : Nat) :
    Completion (Heap × Nat) :=
  match SortingHandler.algorithms algorithmName with
  | .undefined => .thrown (.error ("Algorithm " ++ algorithmName ++ " not found"))
  | algorithm =>
    match h[data]? with
    | none => .thrown (.typeError "data is not iterable")
    | some contents =>
      let dataCopy := h.length
      let h1 := h ++ [contents]
      match algorithm with
      | .own a =>
        match h1[dataCopy]? with
        | none => .thrown .outOfRange
        | some arr =>
          match a.sort arr with
          | none => .thrown .outOfRange
          | some sorted => .returned (h1.set dataCopy sorted, dataCopy)
      | _ => .thrown (.typeError "algorithm.sort is not a function")

/-! ## `main.js`: `estimateComplexity`

Numbers are modelled with the finite values taken as exact elements of an ordered field `K`
(rounding and overflow are left out) next to the three special values of IEEE 754.  There is
one zero: the zero divisors that occur are differences `x - x`, which are `+0`, and a zero
slope compares like `+0` whatever its sign.  `Math.log` on positive numbers is the parameter
`log`; the theorems take `K = ℝ` and `log = Real.log`. -/

/-- A JavaScript number. -/
inductive JSNum (K : Type)
  | nan
  | posInf
  | negInf
  | fin (x : K)
  deriving DecidableEq, Repr

namespace JSNum

variable {K : Type} [LinearOrderedField K]

/-- Host `Math.log(x)`. -/
def mathLog (log : K → K) : JSNum K → JSNum K
  | nan => nan
  | posInf => posInf
  | negInf => nan
  | fin x => if x < 0 then nan else if x = 0 then negInf else fin (log x)

/-- Subtraction `a - b`. -/
def sub : JSNum K → JSNum K → JSNum K
  | nan, _ => nan
  | _, nan => nan
  | posInf, posInf => nan
  | negInf, negInf => nan
  | posInf, _ => posInf
  | negInf, _ => negInf
  | fin _, posInf => negInf
  | fin _, negInf => posInf
  | fin x, fin y => fin (x - y)

/-- Division `a / b`; a zero divisor is `+0`. -/
def div : JSNum K → JSNum K → JSNum K
  | nan, _ => nan
  | _, nan => nan
  | posInf, fin y => if y < 0 then negInf else posInf
  | negInf, fin y => if y < 0 then posInf else negInf
  | posInf, _ => nan
  | negInf, _ => nan
  | fin _, posInf => fin 0
  | fin _, negInf => fin 0
  | fin x, fin y =>
    if y = 0 then (if x = 0 then nan else if 0 < x then posInf else negInf) else fin (x / y)

/-- Host `Math.abs(x)`. -/
def mathAbs : JSNum K → JSNum K
  | nan => nan
  | posInf => posInf
  | negInf => posInf
  | fin x => fin |x|

/-- Comparison `a < b`. -/
def lt : JSNum K → JSNum K → Bool
  | nan, _ => false
  | _, nan => false
  | posInf, _ => false
  | negInf, negInf => false
  | negInf, _ => true
  | fin _, posInf => true
  | fin _, negInf => false
  | fin x, fin y => decide (x < y)

/-- Index read `xs[i]` used as an operand of a subtraction: outside the array the read gives
`undefined`, which the subtraction converts to `NaN`. -/
def index (xs : List (JSNum K)) (i : Int) : JSNum K :=
  if i < 0 then nan else (xs[i.toNat]?).getD nan

end JSNum

/-- The five strings returned by `estimateComplexity`. -/
inductive Label
  | constant
  | logarithmic
  | linearithmic
  | quadratic
  | higher
  deriving DecidableEq, Repr

/-- Function `estimateComplexity(sizes, times)` of main.js (lines 2-14). -/
def estimateComplexity {K : Type} [LinearOrderedField K] (log : K → K) (sizes times : List K) :
    Label :=
  let logSizes := sizes.map fun size => JSNum.mathLog log (.fin size)
  let logTimes := times.map fun time => JSNum.mathLog log (.fin time)
  let slope :=
    JSNum.div
      (JSNum.sub (JSNum.index logTimes ((logTimes.length : Int) - 1)) (JSNum.index logTimes 0))
      (JSNum.sub (JSNum.index logSizes ((logSizes.length : Int) - 1)) (JSNum.index logSizes 0))
  if JSNum.lt (JSNum.mathAbs slope) (.fin 0.1) then .constant
  else if JSNum.lt slope (.fin 0.5) then .logarithmic
  else if JSNum.lt slope (.fin 1.5) then .linearithmic
  else if JSNum.lt (JSNum.mathAbs (JSNum.sub slope (.fin 2))) (.fin 0.5) then .quadratic
  else .higher

/-- The value of `slope` in `estimateComplexity`. -/
def slopeOf {K : Type} [LinearOrderedField K] (log : K → K) (sizes times : List K) : JSNum K :=
  let logSizes := sizes.map fun size => JSNum.mathLog log (.fin size)
  let logTimes := times.map fun time => JSNum.mathLog log (.fin time)
  JSNum.div
    (JSNum.sub (JSNum.index logTimes ((logTimes.length : Int) - 1)) (JSNum.index logTimes 0))
    (JSNum.sub (JSNum.index logSizes ((logSizes.length : Int) - 1)) (JSNum.index logSizes 0))

/-- The chain of tests of `estimateComplexity` on a given slope. -/
def classify {K : Type} [LinearOrderedField K] (slope : JSNum K) : Label :=
  if JSNum.lt (JSNum.mathAbs slope) (.fin 0.1) then .constant
  else if JSNum.lt slope (.fin 0.5) then .logarithmic
  else if JSNum.lt slope (.fin 1.5) then .linearithmic
  else if JSNum.lt (JSNum.mathAbs (JSNum.sub slope (.fin 2))) (.fin 0.5) then .quadratic
  else .higher

/-! ## Random data, timing and the two runners

The random source and the clock are explicit sequences: `random c` is the value that the
call number `c` of `Math.random()` returns and `clock t` the value that the call number `t`
of `performance.now()` returns, and the state counts the calls made so far.  Loops whose
counter is not used by their body are written by recursion on the number of iterations that
are left, loops over an array by recursion on the array.  Console output is left out. -/

/-- Sequencing of calls: an exception ends the computation. -/
def Completion.bind {β γ : Type} : Completion β → (β → Completion γ) → Completion γ
  | .returned v, f => f v
  | .thrown e, _ => .thrown e

/-- Loop of `generateRandomData`: `for (let i = 0; i < size; i++)
data.push(Math.floor(Math.random() * 1000) + 1)`, with `size - i` iterations left. -/
def generateRandomData.loop {K : Type} [LinearOrderedField K] [FloorRing K] (random : Nat → K) :
    Nat → List Int → Nat → List Int × Nat
  | 0, data, c => (data, c)
  | n + 1, data, c =>
    generateRandomData.loop random n (data ++ [⌊random c * 1000⌋ + 1]) (c + 1)

/-- Function `generateRandomData(size)` (the same text in sortClasses.js, lines 4-10, and in
sortFunc.js, lines 52-58), started when `c` random numbers have been drawn; it returns the
array and the number of draws made afterwards. -/
def generateRandomData {K : Type} [LinearOrderedField K] [FloorRing K] (random : Nat → K)
    (size : Nat) (c : Nat) : List Int × Nat :=
  generateRandomData.loop random size [] c

/-- The smaller of two numbers as `Math.min` takes it. -/
def JSNum.min2 {K : Type} [LinearOrderedField K] : JSNum K → JSNum K → JSNum K
  | .nan, _ => .nan
  | _, .nan => .nan
  | .negInf, _ => .negInf
  | _, .negInf => .negInf
  | .posInf, b => b
  | a, .posInf => a
  | .fin x, .fin y => .fin (min x y)

/-- Host `Math.min(...xs)`; it is `Infinity` for no argument. -/
def JSNum.mathMin {K : Type} [LinearOrderedField K] (xs : List (JSNum K)) : JSNum K :=
  xs.foldl JSNum.min2 .posInf

/-- Inner loop of `measureTime` (sortClasses.js, lines 91-93):
`for (let j = 0; j < number; j++) func(...args)`, with `number - j` iterations left.  The call
`func(...args)` acts on a state `s`. -/
def TimeMeasurer.callLoop {σ : Type} (func : σ → Completion σ) : Nat → σ → Completion σ
  | 0, s => .returned s
  | n + 1, s => (func s).bind fun s1 => TimeMeasurer.callLoop func n s1

/-- Outer loop of `measureTime` (sortClasses.js, lines 89-96), with `repeat - i` iterations
left; `t` counts the readings of the clock. -/
def TimeMeasurer.trialLoop {K σ : Type} [LinearOrderedField K] (clock : Nat → K)
    (func : σ → Completion σ) (number : Nat) :
    Nat → List (JSNum K) → σ → Nat → Completion (List (JSNum K) × σ × Nat)
  | 0, times, s, t => .returned (times, s, t)
  | r + 1, times, s, t =>
    let start := clock t
    (TimeMeasurer.callLoop func number s).bind fun s1 =>
      let stop := clock (t + 1)
      TimeMeasurer.trialLoop clock func number r
        (times ++ [JSNum.div (.fin (stop - start)) (.fin (number : K))]) s1 (t + 2)

/-- Method `TimeMeasurer.measureTime(func, args, number, repeat)` (sortClasses.js,
lines 87-98); `rep` is the parameter `repeat`.  It returns the value, the state and the
number of clock readings afterwards. -/
def TimeMeasurer.measureTime {K σ : Type} [LinearOrderedField K] (clock : Nat → K)
    (func : σ → Completion σ) (number rep : Nat) (s : σ) (t : Nat) :
    Completion (JSNum K × σ × Nat) :=
  (TimeMeasurer.trialLoop clock func number rep [] s t).bind fun r =>
    .returned (JSNum.mathMin r.1, r.2.1, r.2.2)

/-- The state that the runners act on. -/
structure World where
  /-- The arrays allocated so far. -/
  heap : Heap
  /-- The number of calls of `performance.now()` so far. -/
  clockReads : Nat
  /-- The number of calls of `Math.random()` so far. -/
  randomDraws : Nat
  /-- A record kept for the statements only: for every call of a sorting algorithm made so
  far, the name of the algorithm and the contents of the array it was given. -/
  inputs : List (String × List Int)
  deriving DecidableEq, Repr

/-- The value of `Object.keys(this.sortingHandler.algorithms)`: the own keys in the order of
the object literal. -/
def SortingHandler.algorithmKeys : List String :=
  ["Merge Sort", "Insertion Sort", "TimSort"]

/-- A mapping from algorithm names to sequences of measurements, in the order of its keys. -/
abbrev Results (K : Type) := List (String × List (JSNum K))

/-- The sequence stored under a key (empty when the key is missing). -/
def Results.get {K : Type} (results : Results K) (algorithm : String) : List (JSNum K) :=
  match results.find? fun entry => entry.1 = algorithm with
  | some entry => entry.2
  | none => []

/-- Statement `this.results[algorithm].push(executionTime)`. -/
def pushResult {K : Type} : Results K → String → JSNum K → Completion (Results K)
  | [], algorithm, _ =>
    if algorithm ∈ objectPrototypeKeys then
      .thrown (.typeError "this.results[algorithm].push is not a function")
    else .thrown (.typeError "Cannot read properties of undefined (reading 'push')")
  | (name, times) :: rest, algorithm, executionTime =>
    if name = algorithm then .returned ((name, times ++ [executionTime]) :: rest)
    else (pushResult rest algorithm executionTime).bind fun rest1 =>
      .returned ((name, times) :: rest1)

/-- The fields of a `MainProgram` object; its `sortingHandler` has no state. -/
structure MainProgram (K : Type) where
  dataSizes : List Nat
  results : Results K

/-- Constructor of `MainProgram` (sortClasses.js, lines 102-109). -/
def MainProgram.new {K : Type} (dataSizes : List Nat) : MainProgram K :=
  ⟨dataSizes, SortingHandler.algorithmKeys.map fun algorithm => (algorithm, [])⟩

/-- The call `this.sortingHandler.performSorting(algorithm, data)` that `run` hands to
`measureTime`; the array returned is dropped. -/
def MainProgram.sortCall (algorithm : String) (data : Nat) (w : World) : Completion World :=
  match SortingHandler.performSorting w.heap algorithm data with
  | .returned r =>
    .returned ⟨r.1, w.clockReads, w.randomDraws,
      w.inputs ++ [(algorithm, (w.heap[data]?).getD [])]⟩
  | .thrown e => .thrown e

/-- The `forEach` over the algorithm names in `run` (sortClasses.js, lines 114-120). -/
def MainProgram.runAlgorithms {K : Type} [LinearOrderedField K] (clock : Nat → K) (data : Nat) :
    List String → Results K → World → Completion (Results K × World)
  | [], results, w => .returned (results, w)
  | algorithm :: rest, results, w =>
    (TimeMeasurer.measureTime clock (MainProgram.sortCall algorithm data) 10 3 w
        w.clockReads).bind fun m =>
      (pushResult results algorithm m.1).bind fun results1 =>
        MainProgram.runAlgorithms clock data rest results1
          ⟨m.2.1.heap, m.2.2, m.2.1.randomDraws, m.2.1.inputs⟩

/-- The loop over `this.dataSizes` in `run` (sortClasses.js, lines 112-121). -/
def MainProgram.runSizes {K : Type} [LinearOrderedField K] [FloorRing K] (clock random : Nat → K) :
    List Nat → Results K → World → Completion (Results K × World)
  | [], results, w => .returned (results, w)
  | size :: rest, results, w =>
    let generated := generateRandomData random size w.randomDraws
    let data := w.heap.length
    (MainProgram.runAlgorithms clock data SortingHandler.algorithmKeys results
        ⟨w.heap ++ [generated.1], w.clockReads, generated.2, w.inputs⟩).bind fun r =>
      MainProgram.runSizes clock random rest r.1 r.2

/-- Method `MainProgram.run(showResults, returnResults)` (sortClasses.js, lines 111-130).  It
returns the value returned, `none` standing for `undefined`, the object and the state
afterwards. -/
def MainProgram.run {K : Type} [LinearOrderedField K] [FloorRing K] (clock random : Nat → K)
    (returnResults : Bool) (program : MainProgram K) (w : World) :
    Completion (Option (Results K) × MainProgram K × World) :=
  (MainProgram.runSizes clock random program.dataSizes program.results w).bind fun r =>
    .returned (if returnResults then some r.1 else none, ⟨program.dataSizes, r.1⟩, r.2)

/-- The functions of sortFunc.js behind the three sorting algorithms. -/
def Algorithm.func : Algorithm → List Int → Option (List Int)
  | .mergeSort => SortBench.mergeSort id
  | .insertionSort => SortBench.insertionSort id
  | .timSort => SortBench.timSort

/-- The object literal `algorithms` of `main` in sortFunc.js (lines 81-85), in the order of
`for (const algName in algorithms)`. -/
def algorithms : List (String × Algorithm) :=
  [("Merge Sort", .mergeSort), ("Insertion Sort", .insertionSort), ("TimSort", .timSort)]

/-- Function `runSortingAlgorithm(algorithm, size)` of sortFunc.js (lines 60-66); `algName`
is used for the record of inputs only.  The array `data` is local to the call and is not
entered in the heap. -/
def runSortingAlgorithm {K : Type} [LinearOrderedField K] [FloorRing K] (clock random : Nat → K)
    (algName : String) (algorithm : Algorithm) (size : Nat) (w : World) :
    Completion (JSNum K × World) :=
  let generated := generateRandomData random size w.randomDraws
  let start := clock w.clockReads
  match algorithm.func generated.1 with
  | none => .thrown .outOfRange
  | some _ =>
    let stop := clock (w.clockReads + 1)
    .returned (JSNum.div (.fin (stop - start)) (.fin 1000),
      ⟨w.heap, w.clockReads + 2, generated.2, w.inputs ++ [(algName, generated.1)]⟩)

/-- Inner loop of `main` (sortFunc.js, lines 92-95) on the array `results[algName]`. -/
def main.sizeLoop {K : Type} [LinearOrderedField K] [FloorRing K] (clock random : Nat → K)
    (algName : String) (algFunc : Algorithm) :
    List Nat → List (JSNum K) → World → Completion (List (JSNum K) × World)
  | [], times, w => .returned (times, w)
  | size :: rest, times, w =>
    (runSortingAlgorithm clock random algName algFunc size w).bind fun r =>
      main.sizeLoop clock random algName algFunc rest (times ++ [r.1]) r.2

/-- Assignment `results[algName] = times`. -/
def assignResult {K : Type} : Results K → String → List (JSNum K) → Results K
  | [], algName, times => [(algName, times)]
  | (name, old) :: rest, algName, times =>
    if name = algName then (name, times) :: rest
    else (name, old) :: assignResult rest algName times

/-- Outer loop of `main` (sortFunc.js, lines 89-96): `results[algName]` is set to a new array
that the inner loop fills. -/
def main.algorithmLoop {K : Type} [LinearOrderedField K] [FloorRing K] (clock random : Nat → K)
    (dataSizes : List Nat) :
    List (String × Algorithm) → Results K → World → Completion (Results K × World)
  | [], results, w => .returned (results, w)
  | entry :: rest, results, w =>
    (main.sizeLoop clock random entry.1 entry.2 dataSizes [] w).bind fun r =>
      main.algorithmLoop clock random dataSizes rest (assignResult results entry.1 r.1) r.2

/-- Function `main(dataSizes, showResults, returnResults)` of sortFunc.js (lines 80-104). -/
def main {K : Type} [LinearOrderedField K] [FloorRing K] (clock random : Nat → K)
    (dataSizes : List Nat) (returnResults : Bool) (w : World) :
    Completion (Option (Results K) × World) :=
  (main.algorithmLoop clock random dataSizes algorithms [] w).bind fun r =>
    .returned (if returnResults then some r.1 else none, r.2)

/-! ## Notions used in the statements and proofs -/

/-- The per-call times of the `rep` trials of a `measureTime` that starts when the clock has
been read `t` times: trial `i` reads the clock at positions `t + 2 * i` and `t + 2 * i + 1`. -/
def trialTimes {K : Type} [LinearOrderedField K] (clock : Nat → K) (number rep t : Nat) :
    List (JSNum K) :=
  (List.range rep).map fun i =>
    JSNum.div (.fin (clock (t + 2 * i + 1) - clock (t + 2 * i))) (.fin (number : K))

/-- The array that the call of `generateRandomData(size)` made after `c` draws returns. -/
def dataSet {K : Type} [LinearOrderedField K] [FloorRing K] (random : Nat → K) (size c : Nat) :
    List Int :=
  (generateRandomData random size c).1

/-- The inputs of the sorting calls of one `MainProgram.run` that starts after `c` draws: for
each size one data set, given to the 30 calls that `measureTime` makes for each of the three
algorithms. -/
def classInputs {K : Type} [LinearOrderedField K] [FloorRing K] (random : Nat → K) :
    List Nat → Nat → List (String × List Int)
  | [], _ => []
  | size :: rest, c =>
    List.replicate 30 ("Merge Sort", dataSet random size c) ++
      List.replicate 30 ("Insertion Sort", dataSet random size c) ++
      List.replicate 30 ("TimSort", dataSet random size c) ++
      classInputs random rest (c + size)

/-- The inputs of the sorting calls that the inner loop of `main` makes for one algorithm
when it starts after `c` draws: a new data set for each size. -/
def funcInputs {K : Type} [LinearOrderedField K] [FloorRing K] (random : Nat → K)
    (algName : String) : List Nat → Nat → List (String × List Int)
  | [], _ => []
  | size :: rest, c => (algName, dataSet random size c) :: funcInputs random algName rest (c + size)

/-- The measurements that `MainProgram.run` appends for the algorithm number `k` when it
starts after `t` readings of the clock and handles `n` sizes: the one for the size number
`i` is taken in the readings `t + 18 * i + 6 * k` to `t + 18 * i + 6 * k + 5`. -/
def classMeasurements {K : Type} [LinearOrderedField K] (clock : Nat → K) (n t k : Nat) :
    List (JSNum K) :=
  (List.range n).map fun i => JSNum.mathMin (trialTimes clock 10 3 (t + 18 * i + 6 * k))

/-- The measurements that the inner loop of `main` stores when it starts after `t` readings
of the clock and handles `n` sizes: the one for the size number `i` is taken in the readings
`t + 2 * i` and `t + 2 * i + 1`. -/
def funcMeasurements {K : Type} [LinearOrderedField K] (clock : Nat → K) (n t : Nat) :
    List (JSNum K) :=
  (List.range n).map fun i =>
    JSNum.div (.fin (clock (t + 2 * i + 1) - clock (t + 2 * i))) (.fin 1000)

/-- A number `k` of calls of `run(false, false)` on the same object, one after the other. -/
def MainProgram.runTimes {K : Type} [LinearOrderedField K] [FloorRing K] (clock random : Nat → K) :
    Nat → MainProgram K → World → Completion (MainProgram K × World)
  | 0, program, w => .returned (program, w)
  | k + 1, program, w =>
    (MainProgram.run clock random false program w).bind fun r =>
      MainProgram.runTimes clock random k r.2.1 r.2.2



/-- List view of `merge`: the fronts are compared with a strict `<`, the right one goes first
otherwise. -/
def mergeL (key : α → Int) : List α → List α → List α
  | [], r => r
  | a :: l, [] => a :: l
  | a :: l, b :: r =>
    if key a < key b then a :: mergeL key l (b :: r) else b :: mergeL key (a :: l) r

/-- Non-decreasing order of the keys. -/
def SortedBy (key : α → Int) (l : List α) : Prop :=
  l.Pairwise fun a b => key a ≤ key b

/-- The elements of `l` whose key is `k`, in the order in which they occur in `l`. -/
def withKey (key : α → Int) (k : Int) (l : List α) : List α :=
  l.filter fun x => decide (key x = k)

/-- The logarithm that `estimateComplexity` reads for an end of one of its arguments. -/
def endLog {K : Type} [LinearOrderedField K] (log : K → K) (x : Option K) : JSNum K :=
  (x.map fun v => JSNum.mathLog log (.fin v)).getD .nan

/-! ## Array accesses and the loops of `merge` -/

theorem writeAt_append (pre : List α) (m v : α) (rest : List α) :
    writeAt (pre ++ m :: rest) pre.length v = some (pre ++ v :: rest) := by
  simp [writeAt]

theorem readAt_lt (l : List α) (i : Nat) (h : i < l.length) : readAt l i = some (l.get ⟨i, h⟩) := by
  simp [readAt, List.getElem?_eq_getElem h]

theorem copyLoop_spec (src : List α) : ∀ (fuel i : Nat) (pre mid post : List α),
    i ≤ src.length → mid.length = src.length - i → src.length - i < fuel →
    copyLoop src fuel (pre ++ mid ++ post) i pre.length
      = some (pre ++ src.drop i ++ post, pre.length + (src.length - i)) := by
  intro fuel
  induction fuel with
  | zero => intro i pre mid post _ _ h; omega
  | succ fuel ih =>
    intro i pre mid post hi hmid hfuel
    unfold copyLoop
    by_cases hlt : i < src.length
    · cases mid with
      | nil => simp at hmid; omega
      | cons m mid1 =>
        have hw : writeAt (pre ++ m :: mid1 ++ post) pre.length (src.get ⟨i, hlt⟩)
            = some ((pre ++ [src.get ⟨i, hlt⟩]) ++ mid1 ++ post) := by
          have := writeAt_append pre m (src.get ⟨i, hlt⟩) (mid1 ++ post)
          simpa using this
        have hlen : (pre ++ [src.get ⟨i, hlt⟩]).length = pre.length + 1 := by simp
        have hmid1 : mid1.length = src.length - (i + 1) := by simp at hmid; omega
        have hrec := ih (i + 1) (pre ++ [src.get ⟨i, hlt⟩]) mid1 post (by omega) hmid1 (by omega)
        rw [hlen] at hrec
        rw [if_pos hlt, readAt_lt src i hlt, Option.some_bind, hw, Option.some_bind, hrec]
        have hd : src.drop i = src.get ⟨i, hlt⟩ :: src.drop (i + 1) := by
          simp
        rw [hd]
        simp
        omega
    · have hi2 : i = src.length := by omega
      have hnil : mid = [] := by
        apply List.eq_nil_of_length_eq_zero; omega
      subst hi2
      simp [hnil]

theorem drop_eq_get_cons (l : List α) (i : Nat) (h : i < l.length) :
    l.drop i = l.get ⟨i, h⟩ :: l.drop (i + 1) := by
  simp

theorem mergeL_nil_right (key : α → Int) (l : List α) : mergeL key l [] = l := by
  cases l <;> simp [mergeL]

theorem mergeL_nil_left (key : α → Int) (r : List α) : mergeL key [] r = r := by
  simp [mergeL]

theorem mergeLoop_spec (key : α → Int) (left right : List α) :
    ∀ (fuel i j : Nat) (pre suf : List α),
    i ≤ left.length → j ≤ right.length →
    suf.length = (left.length - i) + (right.length - j) →
    (left.length - i) + (right.length - j) < fuel →
    ∃ (i1 j1 : Nat) (pre1 suf1 : List α),
      mergeLoop key left right fuel (pre ++ suf) i j pre.length
        = some (pre1 ++ suf1, i1, j1, pre1.length) ∧
      i1 ≤ left.length ∧ j1 ≤ right.length ∧ (i1 = left.length ∨ j1 = right.length) ∧
      suf1.length = (left.length - i1) + (right.length - j1) ∧
      pre1 ++ mergeL key (left.drop i1) (right.drop j1)
        = pre ++ mergeL key (left.drop i) (right.drop j) := by
  intro fuel
  induction fuel with
  | zero => intro i j pre suf _ _ _ h; omega
  | succ fuel ih =>
    intro i j pre suf hi hj hsuf hfuel
    unfold mergeLoop
    by_cases hc : i < left.length ∧ j < right.length
    · obtain ⟨hil, hjr⟩ := hc
      cases suf with
      | nil => simp at hsuf; omega
      | cons m suf1 =>
        rw [if_pos ⟨hil, hjr⟩, readAt_lt left i hil, Option.some_bind, readAt_lt right j hjr,
          Option.some_bind]
        have hsuf1 : suf1.length + 1 = (left.length - i) + (right.length - j) := by
          simpa using hsuf
        by_cases hlt : key (left.get ⟨i, hil⟩) < key (right.get ⟨j, hjr⟩)
        · rw [if_pos hlt, writeAt_append, Option.some_bind]
          obtain ⟨i1, j1, pre1, suf2, h1, h2, h3, h4, h5, h6⟩ :=
            ih (i + 1) j (pre ++ [left.get ⟨i, hil⟩]) suf1 (by omega) hj (by omega) (by omega)
          refine ⟨i1, j1, pre1, suf2, ?_, h2, h3, h4, h5, ?_⟩
          · rw [← h1]; simp
          · rw [h6, drop_eq_get_cons left i hil, drop_eq_get_cons right j hjr]
            rw [mergeL, if_pos hlt, ← drop_eq_get_cons right j hjr]
            simp
        · rw [if_neg hlt, writeAt_append, Option.some_bind]
          obtain ⟨i1, j1, pre1, suf2, h1, h2, h3, h4, h5, h6⟩ :=
            ih i (j + 1) (pre ++ [right.get ⟨j, hjr⟩]) suf1 hi (by omega) (by omega) (by omega)
          refine ⟨i1, j1, pre1, suf2, ?_, h2, h3, h4, h5, ?_⟩
          · rw [← h1]; simp
          · rw [h6, drop_eq_get_cons left i hil, drop_eq_get_cons right j hjr]
            rw [mergeL, if_neg hlt, ← drop_eq_get_cons left i hil]
            simp
    · rw [if_neg hc]
      refine ⟨i, j, pre, suf, rfl, hi, hj, ?_, hsuf, rfl⟩
      by_cases h : i < left.length
      · right; have : ¬ j < right.length := fun hj2 => hc ⟨h, hj2⟩
        omega
      · left; omega

/-- With room for exactly both halves, `merge` completes and `arr` becomes their merge. -/
theorem merge_spec (key : α → Int) (arr left right : List α)
    (hlen : arr.length = left.length + right.length) :
    merge key arr left right = some (mergeL key left right) := by
  obtain ⟨i1, j1, pre1, suf1, h1, h2, h3, h4, h5, h6⟩ :=
    mergeLoop_spec key left right (left.length + right.length + 1) 0 0 [] arr
      (Nat.zero_le _) (Nat.zero_le _) (by simpa using hlen) (by omega)
  simp only [List.nil_append, List.length_nil, List.drop_zero] at h1 h6
  have hsplit : suf1 = suf1.take (left.length - i1) ++ suf1.drop (left.length - i1) := by simp
  have hc1 := copyLoop_spec left (left.length + right.length + 1) i1 pre1
    (suf1.take (left.length - i1)) (suf1.drop (left.length - i1)) h2
    (by rw [List.length_take]; omega) (by omega)
  rw [List.append_assoc, ← hsplit] at hc1
  have hc2 := copyLoop_spec right (left.length + right.length + 1) j1 (pre1 ++ left.drop i1)
    (suf1.drop (left.length - i1)) [] h3
    (by rw [List.length_drop]; omega) (by omega)
  simp only [List.append_nil, List.length_append, List.length_drop] at hc2
  unfold merge
  simp only [h1, Option.some_bind, hc1, hc2]
  rw [← h6]
  rcases h4 with h | h
  · subst h; simp [mergeL_nil_left]
  · subst h; simp [mergeL_nil_right]

theorem withKey_append (key : α → Int) (k : Int) (l r : List α) :
    withKey key k (l ++ r) = withKey key k l ++ withKey key k r := by
  simp [withKey]

theorem withKey_cons (key : α → Int) (k : Int) (a : α) (l : List α) :
    withKey key k (a :: l) = (if key a = k then a :: withKey key k l else withKey key k l) := by
  simp [withKey, List.filter_cons]

theorem withKey_eq_nil (key : α → Int) (k : Int) (l : List α) (h : ∀ x ∈ l, key x ≠ k) :
    withKey key k l = [] := by
  simp only [withKey, List.filter_eq_nil_iff]
  intro x hx
  simpa using h x hx

theorem mergeL_perm (key : α → Int) : ∀ (l r : List α), (mergeL key l r).Perm (l ++ r)
  | [], r => by simp [mergeL]
  | a :: l, [] => by simp [mergeL]
  | a :: l, b :: r => by
    rw [mergeL]
    split
    · exact (mergeL_perm key l (b :: r)).cons a
    · have h := (mergeL_perm key (a :: l) r).cons b
      exact h.trans (List.perm_middle.symm)

theorem mergeL_sorted (key : α → Int) : ∀ (l r : List α),
    SortedBy key l → SortedBy key r → SortedBy key (mergeL key l r)
  | [], r => by intro _ hr; simpa [mergeL] using hr
  | a :: l, [] => by intro hl _; simpa [mergeL] using hl
  | a :: l, b :: r => by
    intro hl hr
    rw [mergeL]
    have hl2 := List.pairwise_cons.mp hl
    have hr2 := List.pairwise_cons.mp hr
    split
    · rename_i hlt
      refine List.pairwise_cons.mpr ⟨?_, mergeL_sorted key l (b :: r) hl2.2 hr⟩
      intro x hx
      rcases List.mem_append.mp ((mergeL_perm key l (b :: r)).mem_iff.mp hx) with h | h
      · exact hl2.1 x h
      · rcases List.mem_cons.mp h with h | h
        · subst h; omega
        · have := hr2.1 x h; omega
    · rename_i hlt
      refine List.pairwise_cons.mpr ⟨?_, mergeL_sorted key (a :: l) r hl hr2.2⟩
      intro x hx
      rcases List.mem_append.mp ((mergeL_perm key (a :: l) r).mem_iff.mp hx) with h | h
      · rcases List.mem_cons.mp h with h | h
        · subst h; omega
        · have := hl2.1 x h; omega
      · exact hr2.1 x h

/-- In a merge, the elements of the right list with a given key all come before those of
the left list with that key. -/
theorem mergeL_withKey (key : α → Int) (k : Int) : ∀ (l r : List α), SortedBy key r →
    withKey key k (mergeL key l r) = withKey key k r ++ withKey key k l
  | [], r => by intro _; simp [mergeL, withKey]
  | a :: l, [] => by intro _; simp [mergeL, withKey]
  | a :: l, b :: r => by
    intro hr
    rw [mergeL]
    have hr2 := List.pairwise_cons.mp hr
    split
    · rename_i hlt
      rw [withKey_cons, mergeL_withKey key k l (b :: r) hr, withKey_cons key k a l]
      by_cases hk : key a = k
      · have hnil : withKey key k (b :: r) = [] := by
          apply withKey_eq_nil
          intro x hx
          rcases List.mem_cons.mp hx with h | h
          · subst h; omega
          · have := hr2.1 x h; omega
        simp [hk, hnil]
      · simp [hk]
    · rw [withKey_cons, mergeL_withKey key k (a :: l) r hr2.2, withKey_cons key k b r]
      by_cases hk : key b = k <;> simp [hk]

theorem reverse_of_length_le_one (l : List α) (h : l.length ≤ 1) : l.reverse = l := by
  match l, h with
  | [], _ => rfl
  | [_], _ => rfl

theorem mergeSortAux_spec (key : α → Int) : ∀ (fuel : Nat) (arr : List α), arr.length < fuel →
    ∃ out, mergeSortAux key fuel arr = some out ∧ out.Perm arr ∧ SortedBy key out ∧
      ∀ k, withKey key k out = (withKey key k arr).reverse := by
  intro fuel
  induction fuel with
  | zero => intro arr h; omega
  | succ fuel ih =>
    intro arr hfuel
    unfold mergeSortAux
    by_cases hlen : arr.length > 1
    · rw [if_pos hlen]
      obtain ⟨outL, hL, hLp, hLs, hLk⟩ := ih (arr.take (arr.length / 2))
        (by rw [List.length_take]; omega)
      obtain ⟨outR, hR, hRp, hRs, hRk⟩ := ih (arr.drop (arr.length / 2))
        (by rw [List.length_drop]; omega)
      have hsum : arr.length = outL.length + outR.length := by
        rw [hLp.length_eq, hRp.length_eq, List.length_take, List.length_drop]; omega
      refine ⟨mergeL key outL outR, ?_, ?_, mergeL_sorted key outL outR hLs hRs, ?_⟩
      · simp only [hL, hR, Option.some_bind]
        exact merge_spec key arr outL outR hsum
      · have h1 := mergeL_perm key outL outR
        have h2 : (outL ++ outR).Perm (arr.take (arr.length / 2) ++ arr.drop (arr.length / 2)) :=
          hLp.append hRp
        rw [List.take_append_drop] at h2
        exact h1.trans h2
      · intro k
        rw [mergeL_withKey key k outL outR hRs, hLk, hRk, ← List.reverse_append,
          ← withKey_append, List.take_append_drop]
    · rw [if_neg hlen]
      refine ⟨arr, rfl, List.Perm.refl _, ?_, ?_⟩
      · match arr, hlen with
        | [], _ => exact List.Pairwise.nil
        | [_], _ => exact List.pairwise_singleton _ _
        | _ :: _ :: _, h => simp at h
      · intro k
        symm
        apply reverse_of_length_le_one
        have := List.length_filter_le (fun x => decide (key x = k)) arr
        simp only [withKey]
        omega

theorem readAt_append (pre : List α) (a : α) (rest : List α) :
    readAt (pre ++ a :: rest) pre.length = some a := by
  unfold readAt
  rw [List.getElem?_append_right (Nat.le_refl _)]
  simp

/-- The inner loop of insertion sort, run on `pre ++ y :: suf` from `j + 1 = pre.length`:
it moves the longest run `p2` of elements with a key above that of `x` from the end of `pre`
one place up and writes `x` below it. -/
theorem insertionInner_spec (key : α → Int) (x : α) : ∀ (n : Nat) (pre : List α) (y : α)
    (suf : List α), pre.length = n →
    ∃ p1 p2, pre = p1 ++ p2 ∧ (∀ a ∈ p2, key x < key a) ∧
      (p1 = [] ∨ ∃ p a, p1 = p ++ [a] ∧ key a ≤ key x) ∧
      insertionInner key x n (pre ++ y :: suf) = some (p1 ++ x :: p2 ++ suf) := by
  intro n
  induction n with
  | zero =>
    intro pre y suf hn
    have hpre : pre = [] := List.eq_nil_of_length_eq_zero hn
    subst hpre
    exact ⟨[], [], rfl, by simp, Or.inl rfl, by simp [insertionInner, writeAt]⟩
  | succ n ih =>
    intro pre y suf hn
    rcases List.eq_nil_or_concat pre with h | ⟨p, a, h⟩
    · subst h; simp at hn
    · rw [List.concat_eq_append] at h
      subst h
      have hp : p.length = n := by simpa using hn
      unfold insertionInner
      have hread : readAt (p ++ [a] ++ y :: suf) n = some a := by
        have := readAt_append p a (y :: suf)
        rw [hp] at this
        simpa using this
      rw [hread, Option.some_bind]
      by_cases hgt : key a > key x
      · rw [if_pos hgt]
        have hw : writeAt (p ++ [a] ++ y :: suf) (n + 1) a = some (p ++ a :: a :: suf) := by
          have := writeAt_append (p ++ [a]) y a suf
          rw [List.length_append, hp] at this
          simpa using this
        rw [hw, Option.some_bind]
        obtain ⟨p1, p2, h1, h2, h3, h4⟩ := ih p a (a :: suf) hp
        refine ⟨p1, p2 ++ [a], ?_, ?_, h3, ?_⟩
        · rw [h1]; simp
        · intro b hb
          rcases List.mem_append.mp hb with h | h
          · exact h2 b h
          · simp at h; subst h; omega
        · rw [h4]; simp
      · rw [if_neg hgt]
        have hw : writeAt (p ++ [a] ++ y :: suf) (n + 1) x = some (p ++ [a] ++ x :: suf) := by
          have := writeAt_append (p ++ [a]) y x suf
          rw [List.length_append, hp] at this
          simpa using this
        rw [hw]
        exact ⟨p ++ [a], [], by simp, by simp, Or.inr ⟨p, a, rfl, by omega⟩, by simp⟩

theorem insertionOuter_spec (key : α → Int) : ∀ (fuel : Nat) (pre suf : List α),
    suf.length < fuel → SortedBy key pre →
    ∃ out, insertionOuter key fuel pre.length (pre ++ suf) = some out ∧
      out.Perm (pre ++ suf) ∧ SortedBy key out ∧
      ∀ k, withKey key k out = withKey key k (pre ++ suf) := by
  intro fuel
  induction fuel with
  | zero => intro pre suf h; omega
  | succ fuel ih =>
    intro pre suf hfuel hsorted
    unfold insertionOuter
    cases suf with
    | nil =>
      refine ⟨pre, by simp, by simp, hsorted, fun k => by simp⟩
    | cons x suf1 =>
      have hlt : pre.length < (pre ++ x :: suf1).length := by simp
      rw [if_pos hlt, readAt_append, Option.some_bind]
      obtain ⟨p1, p2, h1, h2, h3, h4⟩ := insertionInner_spec key x pre.length pre x suf1 rfl
      rw [h4, Option.some_bind]
      subst h1
      have hs := List.pairwise_append.mp hsorted
      have hp1 : ∀ b ∈ p1, key b ≤ key x := by
        rcases h3 with h | ⟨p, a, h, ha⟩
        · subst h; simp
        · subst h
          intro b hb
          rcases List.mem_append.mp hb with hb | hb
          · have := (List.pairwise_append.mp hs.1).2.2 b hb a (by simp)
            omega
          · simp at hb; subst hb; exact ha
      have hsorted1 : SortedBy key (p1 ++ x :: p2) := by
        refine List.pairwise_append.mpr ⟨hs.1, List.pairwise_cons.mpr ⟨?_, hs.2.1⟩, ?_⟩
        · intro b hb; have := h2 b hb; omega
        · intro a ha b hb
          rcases List.mem_cons.mp hb with h | h
          · subst h; exact hp1 a ha
          · exact hs.2.2 a ha b h
      have hlen1 : (p1 ++ x :: p2).length = (p1 ++ p2).length + 1 := by
        simp; omega
      obtain ⟨out, ho1, ho2, ho3, ho4⟩ := ih (p1 ++ x :: p2) suf1 (by simpa using hfuel) hsorted1
      rw [hlen1] at ho1
      refine ⟨out, by simpa using ho1, ?_, ho3, ?_⟩
      · refine ho2.trans ?_
        have : (p1 ++ x :: p2).Perm (p1 ++ p2 ++ [x]) := by
          have h := (List.perm_middle : (p1 ++ x :: p2).Perm (x :: (p1 ++ p2)))
          exact h.trans (List.perm_append_singleton x (p1 ++ p2)).symm
        have h5 := this.append_right suf1
        simpa using h5
      · intro k
        rw [ho4 k]
        simp only [withKey_append, withKey_cons]
        by_cases hk : key x = k
        · have hnil : withKey key k p2 = [] := by
            apply withKey_eq_nil
            intro b hb; have := h2 b hb; omega
          simp [hk, hnil]
        · simp [hk]

theorem insertionSort_spec (key : α → Int) (arr : List α) :
    ∃ out, insertionSort key arr = some out ∧ out.Perm arr ∧ SortedBy key out ∧
      ∀ k, withKey key k out = withKey key k arr := by
  cases arr with
  | nil => exact ⟨[], by simp [insertionSort, insertionOuter], List.Perm.refl _, List.Pairwise.nil, fun _ => rfl⟩
  | cons a rest =>
    obtain ⟨out, h1, h2, h3, h4⟩ := insertionOuter_spec key ((a :: rest).length + 1) [a] rest
      (by simp; omega) (List.pairwise_singleton _ _)
    exact ⟨out, by simpa [insertionSort] using h1, by simpa using h2, h3, by simpa using h4⟩

theorem mergeSort_spec (key : α → Int) (arr : List α) :
    ∃ out, mergeSort key arr = some out ∧ out.Perm arr ∧ SortedBy key out ∧
      ∀ k, withKey key k out = (withKey key k arr).reverse :=
  mergeSortAux_spec key (arr.length + 1) arr (Nat.lt_succ_self _)

theorem estimateComplexity_eq_classify {K : Type} [LinearOrderedField K] (log : K → K)
    (sizes times : List K) :
    estimateComplexity log sizes times = classify (slopeOf log sizes times) := rfl

/-! ## The class-based sorts compute what the function-based ones do -/

theorem MergeSort.mergeLoop_eq (key : α → Int) (left right : List α) :
    ∀ (fuel : Nat) (data : List α) (i j k : Nat),
    MergeSort.mergeLoop key left right fuel data i j k = SortBench.mergeLoop key left right fuel data i j k := by
  intro fuel
  induction fuel with
  | zero => intros; rfl
  | succ fuel ih =>
    intro data i j k
    simp only [MergeSort.mergeLoop, SortBench.mergeLoop, ih]

theorem MergeSort.copyLoop_eq (src : List α) : ∀ (fuel : Nat) (data : List α) (i k : Nat),
    MergeSort.copyLoop src fuel data i k = SortBench.copyLoop src fuel data i k := by
  intro fuel
  induction fuel with
  | zero => intros; rfl
  | succ fuel ih =>
    intro data i k
    simp only [MergeSort.copyLoop, SortBench.copyLoop, ih]

theorem MergeSort.merge_eq (key : α → Int) (data left right : List α) :
    MergeSort.merge key data left right = SortBench.merge key data left right := by
  simp only [MergeSort.merge, SortBench.merge, MergeSort.mergeLoop_eq, MergeSort.copyLoop_eq]

theorem MergeSort.sortAux_eq (key : α → Int) : ∀ (fuel : Nat) (data : List α),
    MergeSort.sortAux key fuel data = mergeSortAux key fuel data := by
  intro fuel
  induction fuel with
  | zero => intros; rfl
  | succ fuel ih =>
    intro data
    simp only [MergeSort.sortAux, mergeSortAux, ih, MergeSort.merge_eq]

theorem MergeSort.sort_eq_mergeSort (key : α → Int) (data : List α) :
    MergeSort.sort key data = mergeSort key data := by
  simp only [MergeSort.sort, mergeSort, MergeSort.sortAux_eq]

theorem InsertionSort.inner_eq (key : α → Int) (x : α) : ∀ (n : Nat) (data : List α),
    InsertionSort.inner key x n data = insertionInner key x n data := by
  intro n
  induction n with
  | zero => intros; rfl
  | succ n ih =>
    intro data
    simp only [InsertionSort.inner, insertionInner, ih]

theorem InsertionSort.outer_eq (key : α → Int) : ∀ (fuel i : Nat) (data : List α),
    InsertionSort.outer key fuel i data = insertionOuter key fuel i data := by
  intro fuel
  induction fuel with
  | zero => intros; rfl
  | succ fuel ih =>
    intro i data
    simp only [InsertionSort.outer, insertionOuter, ih, InsertionSort.inner_eq]

theorem InsertionSort.sort_eq_insertionSort (key : α → Int) (data : List α) :
    InsertionSort.sort key data = insertionSort key data := by
  simp only [InsertionSort.sort, insertionSort, InsertionSort.outer_eq]

theorem sortedBy_id_iff (l : List Int) : SortedBy id l ↔ l.Sorted (· ≤ ·) := Iff.rfl

theorem arraySort_sub_spec (arr : List Int) :
    (arraySort (fun a b => a - b) arr).Perm arr ∧
      (arraySort (fun a b => a - b) arr).Sorted (· ≤ ·) := by
  have hrel : (fun a b : Int => a - b ≤ 0) = (fun a b : Int => a ≤ b) := by
    funext a b
    exact propext ⟨fun h => by omega, fun h => by omega⟩
  refine ⟨List.perm_insertionSort _ arr, ?_⟩
  unfold arraySort
  have hs := List.sorted_insertionSort (fun a b : Int => a ≤ b) arr
  convert hs using 2

theorem Algorithm.sort_spec (a : Algorithm) (arr : List Int) :
    ∃ out, a.sort arr = some out ∧ out.Perm arr ∧ out.Sorted (· ≤ ·) := by
  cases a with
  | mergeSort =>
    obtain ⟨out, h1, h2, h3, _⟩ := mergeSort_spec id arr
    exact ⟨out, by simp only [Algorithm.sort, MergeSort.sort_eq_mergeSort, h1], h2, h3⟩
  | insertionSort =>
    obtain ⟨out, h1, h2, h3, _⟩ := insertionSort_spec id arr
    exact ⟨out, by simp only [Algorithm.sort, InsertionSort.sort_eq_insertionSort, h1], h2, h3⟩
  | timSort =>
    exact ⟨_, rfl, (arraySort_sub_spec arr).1, (arraySort_sub_spec arr).2⟩

/-- A call of `performSorting` whose name is an own property of the registry and whose
argument is an array of the heap. -/
theorem performSorting_own (h : Heap) (algorithmName : String) (data : Nat) (a : Algorithm)
    (contents : List Int) (ha : SortingHandler.algorithms algorithmName = .own a)
    (hd : h[data]? = some contents) :
    ∃ sorted, a.sort contents = some sorted ∧
      SortingHandler.performSorting h algorithmName data
        = .returned (h ++ [sorted], h.length) := by
  obtain ⟨sorted, hs, _, _⟩ := Algorithm.sort_spec a contents
  refine ⟨sorted, hs, ?_⟩
  have hget : (h ++ [contents])[h.length]? = some contents := by
    rw [List.getElem?_append_right (Nat.le_refl _)]; simp
  have hset : (h ++ [contents]).set h.length sorted = h ++ [sorted] := by
    rw [List.set_append_right _ _ (Nat.le_refl _)]; simp
  simp only [SortingHandler.performSorting, ha, hd, hget, hs, hset]

/-- A name that is neither registered nor a member of `Object.prototype` gets the
`not found` error, whatever `data` is. -/
theorem performSorting_not_found (h : Heap) (algorithmName : String) (data : Nat)
    (h1 : algorithmName ≠ "Merge Sort") (h2 : algorithmName ≠ "Insertion Sort")
    (h3 : algorithmName ≠ "TimSort") (h4 : algorithmName ∉ objectPrototypeKeys) :
    SortingHandler.performSorting h algorithmName data
      = .thrown (.error ("Algorithm " ++ algorithmName ++ " not found")) := by
  have hu : SortingHandler.algorithms algorithmName = .undefined := by
    simp only [SortingHandler.algorithms, if_neg h1, if_neg h2, if_neg h3, if_neg h4]
  simp only [SortingHandler.performSorting, hu]

/-- A name inherited from `Object.prototype` passes the guard and fails at the call of
`sort`. -/
theorem performSorting_inherited (h : Heap) (algorithmName : String) (data : Nat)
    (contents : List Int) (hi : SortingHandler.algorithms algorithmName = .inherited)
    (hd : h[data]? = some contents) :
    SortingHandler.performSorting h algorithmName data
      = .thrown (.typeError "algorithm.sort is not a function") := by
  simp only [SortingHandler.performSorting, hi, hd]

theorem performSorting_nonexistent_example :
    SortingHandler.performSorting [[3, 1, 2]] "Nonexistent" 0
      = .thrown (.error "Algorithm Nonexistent not found") := by
  decide

/-- On a tie between the fronts of the two halves, `merge` writes the front of the right
half at position 0. -/
theorem merge_tie_right_first (key : α → Int) (data : List α) (a b : α) (l r : List α)
    (hlen : data.length = (a :: l).length + (b :: r).length) (htie : key a = key b) :
    merge key data (a :: l) (b :: r) = some (b :: mergeL key (a :: l) r) := by
  rw [merge_spec key data (a :: l) (b :: r) hlen, mergeL, if_neg (by omega)]

/-! ## The slope computed by `estimateComplexity` -/

theorem index_map_zero {K : Type} (f : K → JSNum K) (l : List K) :
    JSNum.index (l.map f) 0 = (l.head?.map f).getD .nan := by
  cases l <;> simp [JSNum.index]

theorem index_map_last {K : Type} (f : K → JSNum K) (l : List K) :
    JSNum.index (l.map f) ((((l.map f).length : Nat) : Int) - 1) = (l.getLast?.map f).getD .nan := by
  cases l with
  | nil => simp [JSNum.index]
  | cons a t =>
    have hnn : ¬ ((((a :: t).map f).length : Nat) : Int) - 1 < 0 := by
      simp only [List.length_map, List.length_cons]; push_cast; omega
    have hnat : (((((a :: t).map f).length : Nat) : Int) - 1).toNat = (a :: t).length - 1 := by
      simp only [List.length_map, List.length_cons]; push_cast; omega
    unfold JSNum.index
    rw [if_neg hnn, hnat, List.getLast?_eq_getElem?, List.getElem?_map]

section Slope

variable {K : Type} [LinearOrderedField K]

theorem slopeOf_eq (log : K → K) (sizes times : List K) :
    slopeOf log sizes times =
      JSNum.div (JSNum.sub (endLog log times.getLast?) (endLog log times.head?))
        (JSNum.sub (endLog log sizes.getLast?) (endLog log sizes.head?)) := by
  unfold slopeOf endLog
  simp only [index_map_zero, index_map_last]

theorem endLog_pos (log : K → K) (x : K) (hx : 0 < x) :
    endLog log (some x) = .fin (log x) := by
  simp [endLog, JSNum.mathLog, not_lt.mpr hx.le, hx.ne.symm]

theorem classify_nan : classify (JSNum.nan : JSNum K) = Label.higher := by
  simp [classify, JSNum.lt, JSNum.mathAbs, JSNum.sub]

theorem classify_posInf : classify (JSNum.posInf : JSNum K) = Label.higher := by
  simp [classify, JSNum.lt, JSNum.mathAbs, JSNum.sub]

theorem classify_negInf : classify (JSNum.negInf : JSNum K) = Label.logarithmic := by
  simp [classify, JSNum.lt, JSNum.mathAbs, JSNum.sub]

end Slope

/-- The slope is not a finite number as soon as the first and last sizes coincide (or are
missing), or the first or the last time is not positive. -/
theorem slopeOf_degenerate {K : Type} [LinearOrderedField K] (log : K → K)
    (sizes times : List K)
    (h : sizes.head? = sizes.getLast? ∨ (∃ t, times.head? = some t ∧ t ≤ 0) ∨
      (∃ t, times.getLast? = some t ∧ t ≤ 0)) :
    slopeOf log sizes times = .nan ∨ slopeOf log sizes times = .posInf ∨
      slopeOf log sizes times = .negInf := by
  rw [slopeOf_eq]
  rcases h with h | ⟨t, ht, hle⟩ | ⟨t, ht, hle⟩
  · rw [h]
    have hden : JSNum.sub (endLog log sizes.getLast?) (endLog log sizes.getLast?) = .nan ∨
        JSNum.sub (endLog log sizes.getLast?) (endLog log sizes.getLast?) = .fin 0 := by
      cases sizes.getLast? with
      | none => left; simp [endLog, JSNum.sub]
      | some v =>
        simp only [endLog, Option.map_some', Option.getD_some, JSNum.mathLog]
        split_ifs <;> simp [JSNum.sub]
    rcases hden with hd | hd <;> rw [hd]
    · cases JSNum.sub (endLog log times.getLast?) (endLog log times.head?) <;> simp [JSNum.div]
    · cases JSNum.sub (endLog log times.getLast?) (endLog log times.head?) with
      | nan => simp [JSNum.div]
      | posInf => simp [JSNum.div]
      | negInf => simp [JSNum.div]
      | fin x =>
        simp only [JSNum.div, if_true]
        split_ifs <;> simp
  · rw [ht]
    have hfirst : endLog log (some t) = .nan ∨ endLog log (some t) = .negInf := by
      simp only [endLog, Option.map_some', Option.getD_some, JSNum.mathLog]
      rcases lt_or_eq_of_le hle with h1 | h1
      · left; simp [h1]
      · right; simp [h1]
    have hnum : JSNum.sub (endLog log times.getLast?) (endLog log (some t)) = .nan ∨
        JSNum.sub (endLog log times.getLast?) (endLog log (some t)) = .posInf := by
      rcases hfirst with hf | hf <;> rw [hf] <;>
        cases endLog log times.getLast? <;> simp [JSNum.sub]
    rcases hnum with hn | hn <;> rw [hn]
    · simp [JSNum.div]
    · cases JSNum.sub (endLog log sizes.getLast?) (endLog log sizes.head?) with
      | nan => simp [JSNum.div]
      | posInf => simp [JSNum.div]
      | negInf => simp [JSNum.div]
      | fin y => simp only [JSNum.div]; split_ifs <;> simp
  · rw [ht]
    have hlast : endLog log (some t) = .nan ∨ endLog log (some t) = .negInf := by
      simp only [endLog, Option.map_some', Option.getD_some, JSNum.mathLog]
      rcases lt_or_eq_of_le hle with h1 | h1
      · left; simp [h1]
      · right; simp [h1]
    have hnum : JSNum.sub (endLog log (some t)) (endLog log times.head?) = .nan ∨
        JSNum.sub (endLog log (some t)) (endLog log times.head?) = .negInf := by
      rcases hlast with hf | hf <;> rw [hf] <;>
        cases endLog log times.head? <;> simp [JSNum.sub]
    rcases hnum with hn | hn <;> rw [hn]
    · simp [JSNum.div]
    · cases JSNum.sub (endLog log sizes.getLast?) (endLog log sizes.head?) with
      | nan => simp [JSNum.div]
      | posInf => simp [JSNum.div]
      | negInf => simp [JSNum.div]
      | fin y => simp only [JSNum.div]; split_ifs <;> simp

/-! ## Logarithms of the literals used in the examples -/

theorem slopeOf_equal_sizes_example : slopeOf Real.log [10, 10] [1, 2] = .posInf := by
  have h2 : 0 < Real.log 2 := Real.log_pos (by norm_num)
  rw [slopeOf_eq]
  simp only [List.head?_cons, List.getLast?_cons_cons, List.getLast?_singleton]
  rw [endLog_pos Real.log 10 (by norm_num), endLog_pos Real.log 1 (by norm_num),
    endLog_pos Real.log 2 (by norm_num)]
  simp [JSNum.sub, JSNum.div, h2, h2.ne.symm]

theorem slopeOf_zero_time_example : slopeOf Real.log [10, 100] [0, 1] = .posInf := by
  have h1 : Real.log 10 < Real.log 100 := Real.log_lt_log (by norm_num) (by norm_num)
  rw [slopeOf_eq]
  simp only [List.head?_cons, List.getLast?_cons_cons, List.getLast?_singleton]
  rw [endLog_pos Real.log 10 (by norm_num), endLog_pos Real.log 100 (by norm_num),
    endLog_pos Real.log 1 (by norm_num)]
  have h0 : endLog Real.log (some 0) = .negInf := by simp [endLog, JSNum.mathLog]
  rw [h0]
  have h3 : ¬ Real.log 100 - Real.log 10 < 0 := by linarith
  simp [JSNum.sub, JSNum.div, h3]

/-- The label is computed from the first and last entries alone. -/
theorem estimateComplexity_ends {K : Type} [LinearOrderedField K] (log : K → K)
    (sizes1 times1 sizes2 times2 : List K)
    (hs0 : sizes1.head? = sizes2.head?) (hs1 : sizes1.getLast? = sizes2.getLast?)
    (ht0 : times1.head? = times2.head?) (ht1 : times1.getLast? = times2.getLast?) :
    estimateComplexity log sizes1 times1 = estimateComplexity log sizes2 times2 := by
  rw [estimateComplexity_eq_classify, estimateComplexity_eq_classify, slopeOf_eq, slopeOf_eq,
    hs0, hs1, ht0, ht1]

/-! ## Claims -/

/-- C1: for every array of integers, `mergeSort` (sortFunc.js) and `MergeSort.sort`
(sortClasses.js) both complete, and the array then holds a permutation of its original
contents, of the same length, in non-decreasing order. -/
theorem C1_mergeSort_sorted_perm (arr : List Int) :
    ∃ out, mergeSort id arr = some out ∧ MergeSort.sort id arr = some out ∧
      out.Perm arr ∧ out.length = arr.length ∧ out.Sorted (· ≤ ·) := by
  obtain ⟨out, h1, h2, h3, _⟩ := mergeSort_spec id arr
  exact ⟨out, h1, by rw [MergeSort.sort_eq_mergeSort, h1], h2, h2.length_eq, h3⟩

/-- C2: for every array of integers, `insertionSort` (sortFunc.js) and `InsertionSort.sort`
(sortClasses.js) both complete, and the array then holds a permutation of its original
contents, of the same length, in non-decreasing order. -/
theorem C2_insertionSort_sorted_perm (arr : List Int) :
    ∃ out, insertionSort id arr = some out ∧ InsertionSort.sort id arr = some out ∧
      out.Perm arr ∧ out.length = arr.length ∧ out.Sorted (· ≤ ·) := by
  obtain ⟨out, h1, h2, h3, _⟩ := insertionSort_spec id arr
  exact ⟨out, h1, by rw [InsertionSort.sort_eq_insertionSort, h1], h2, h2.length_eq, h3⟩

/-- C3: for every registered algorithm name and every array `data` of the heap,
`performSorting` returns a reference to an array that did not exist before the call, hence
one separate from `data`, and every array that existed before the call, `data` among them,
holds the same elements in the same order after it. -/
theorem C3_performSorting_leaves_data (h : Heap) (algorithmName : String) (data : Nat)
    (hname : algorithmName = "Merge Sort" ∨ algorithmName = "Insertion Sort" ∨
      algorithmName = "TimSort")
    (hdata : data < h.length) :
    ∃ h1 result, SortingHandler.performSorting h algorithmName data = .returned (h1, result) ∧
      result ≠ data ∧ h.length ≤ result ∧ result < h1.length ∧
      h1[data]? = h[data]? ∧ ∀ r, r < h.length → h1[r]? = h[r]? := by
  have hown : ∃ a, SortingHandler.algorithms algorithmName = .own a := by
    rcases hname with h1 | h1 | h1 <;> subst h1
    · exact ⟨.mergeSort, by decide⟩
    · exact ⟨.insertionSort, by decide⟩
    · exact ⟨.timSort, by decide⟩
  obtain ⟨a, ha⟩ := hown
  have hd : h[data]? = some (h.get ⟨data, hdata⟩) := by
    simp [List.getElem?_eq_getElem hdata]
  obtain ⟨sorted, _, hrun⟩ := performSorting_own h algorithmName data a _ ha hd
  have hold : ∀ r, r < h.length → (h ++ [sorted])[r]? = h[r]? := by
    intro r hr
    exact List.getElem?_append_left hr
  exact ⟨h ++ [sorted], h.length, hrun, by omega, Nat.le_refl _, by simp, hold data hdata, hold⟩

theorem C3_performSorting_leaves_data_witness :
    ∃ h1 result, SortingHandler.performSorting [[3, 1, 2]] "Insertion Sort" 0
        = .returned (h1, result) ∧
      result ≠ 0 ∧ 1 ≤ result ∧ result < h1.length ∧
      h1[0]? = some [3, 1, 2] ∧ ∀ r, r < 1 → h1[r]? = ([[3, 1, 2]] : Heap)[r]? :=
  C3_performSorting_leaves_data [[3, 1, 2]] "Insertion Sort" 0 (Or.inr (Or.inl rfl)) (by decide)

/-- C4 (failing input): `'toString'` is not a registered name, yet
`performSorting('toString', [3, 1, 2])` does not fail with `Algorithm toString not found`:
the property read finds `Object.prototype.toString`, the guard `!algorithm` lets it through,
and the call of its missing `sort` method raises a `TypeError`. -/
theorem C4_performSorting_inherited_name :
    SortingHandler.performSorting [[3, 1, 2]] "toString" 0
        = .thrown (.typeError "algorithm.sort is not a function") ∧
      SortingHandler.performSorting [[3, 1, 2]] "toString" 0
        ≠ .thrown (.error "Algorithm toString not found") := by
  decide

/-- C5 (counterexample): on the two pairs `(1, 0)`, `(1, 1)` with equal keys, `merge` writes the
front of the right half first, and merge sort returns them in the other order. -/
theorem C5_mergeSort_not_stable :
    merge Prod.fst [((1 : Int), (0 : Nat)), (1, 1)] [(1, 0)] [(1, 1)] = some [(1, 1), (1, 0)] ∧
      mergeSort Prod.fst [((1 : Int), (0 : Nat)), (1, 1)] = some [(1, 1), (1, 0)] ∧
      MergeSort.sort Prod.fst [((1 : Int), (0 : Nat)), (1, 1)] = some [(1, 1), (1, 0)] ∧
      withKey Prod.fst 1 [((1 : Int), (1 : Nat)), (1, 0)]
        ≠ withKey Prod.fst 1 [((1 : Int), (0 : Nat)), (1, 1)] := by
  decide

/-- C5 (amended): with elements modelled as `(key, tag)` pairs compared by key only, merge
sort (`mergeSort` and `MergeSort.sort`) completes on every input and the elements with any
one key appear in the output in the reverse of their order in the input; when the front
elements of the two halves have equal keys, `merge` writes the right-half element first. -/
theorem C5_mergeSort_reverses_equal_keys (τ : Type) :
    (∀ arr : List (Int × τ), ∃ out, mergeSort Prod.fst arr = some out ∧
      MergeSort.sort Prod.fst arr = some out ∧
      ∀ k, withKey Prod.fst k out = (withKey Prod.fst k arr).reverse) ∧
    (∀ (data : List (Int × τ)) (a b : Int × τ) (l r : List (Int × τ)),
      data.length = (a :: l).length + (b :: r).length → a.1 = b.1 →
      ∃ rest, merge Prod.fst data (a :: l) (b :: r) = some (b :: rest) ∧
        MergeSort.merge Prod.fst data (a :: l) (b :: r) = some (b :: rest)) := by
  constructor
  · intro arr
    obtain ⟨out, h1, _, _, h4⟩ := mergeSort_spec Prod.fst arr
    exact ⟨out, h1, by rw [MergeSort.sort_eq_mergeSort, h1], h4⟩
  · intro data a b l r hlen htie
    have h := merge_tie_right_first Prod.fst data a b l r hlen htie
    exact ⟨_, h, by rw [MergeSort.merge_eq, h]⟩

theorem C5_mergeSort_reverses_equal_keys_witness :
    ∃ rest, merge Prod.fst [((7 : Int), 'x'), (7, 'y'), (9, 'z')] [(7, 'a'), (9, 'b')] [(7, 'c')]
        = some ((7, 'c') :: rest) ∧
      MergeSort.merge Prod.fst [((7 : Int), 'x'), (7, 'y'), (9, 'z')] [(7, 'a'), (9, 'b')]
        [(7, 'c')] = some ((7, 'c') :: rest) :=
  (C5_mergeSort_reverses_equal_keys Char).2 [((7 : Int), 'x'), (7, 'y'), (9, 'z')]
    (7, 'a') (7, 'c') [(9, 'b')] [] (by decide) (by decide)

/-- C6: with elements modelled as `(key, tag)` pairs compared by key only, insertion sort
(`insertionSort` and `InsertionSort.sort`) completes on every input and the elements with any
one key appear in the output in the same order as in the input; the inner loop moves up only
a run `p2` of elements whose keys are strictly larger than that of the element inserted. -/
theorem C6_insertionSort_stable (τ : Type) :
    (∀ arr : List (Int × τ), ∃ out, insertionSort Prod.fst arr = some out ∧
      InsertionSort.sort Prod.fst arr = some out ∧
      ∀ k, withKey Prod.fst k out = withKey Prod.fst k arr) ∧
    (∀ (x : Int × τ) (pre : List (Int × τ)) (y : Int × τ) (suf : List (Int × τ)),
      ∃ p1 p2, pre = p1 ++ p2 ∧ (∀ a ∈ p2, x.1 < a.1) ∧
        insertionInner Prod.fst x pre.length (pre ++ y :: suf) = some (p1 ++ x :: p2 ++ suf) ∧
        InsertionSort.inner Prod.fst x pre.length (pre ++ y :: suf)
          = some (p1 ++ x :: p2 ++ suf)) := by
  constructor
  · intro arr
    obtain ⟨out, h1, _, _, h4⟩ := insertionSort_spec Prod.fst arr
    exact ⟨out, h1, by rw [InsertionSort.sort_eq_insertionSort, h1], h4⟩
  · intro x pre y suf
    obtain ⟨p1, p2, h1, h2, _, h4⟩ := insertionInner_spec Prod.fst x pre.length pre y suf rfl
    exact ⟨p1, p2, h1, h2, h4, by rw [InsertionSort.inner_eq, h4]⟩

/-- C8 (counterexample): on `sizes = [10, 10]`, whose sizes have one distinct value, and on
`times = [0, 1]`, which holds a time that is not positive, `estimateComplexity` raises no
error: the slope is `+Infinity` and the label returned is Higher. -/
theorem C8_degenerate_input_returns_label :
    slopeOf Real.log [10, 10] [1, 2] = .posInf ∧
    estimateComplexity Real.log [10, 10] [1, 2] = Label.higher ∧
    slopeOf Real.log [10, 100] [0, 1] = .posInf ∧
    estimateComplexity Real.log [10, 100] [0, 1] = Label.higher := by
  refine ⟨slopeOf_equal_sizes_example, ?_, slopeOf_zero_time_example, ?_⟩
  · rw [estimateComplexity_eq_classify, slopeOf_equal_sizes_example, classify_posInf]
  · rw [estimateComplexity_eq_classify, slopeOf_zero_time_example, classify_posInf]

/-- C8 (amended): for every input whose first and last sizes coincide (in particular when
`sizes` has fewer than two distinct values or fewer than two entries) or whose first or last
time is `<= 0`, `estimateComplexity` raises no error: the slope is `NaN`, `+Infinity` or
`-Infinity` and the function returns the label computed from it, which is Higher for `NaN`
and `+Infinity` and Logarithmic for `-Infinity`. -/
theorem C8_degenerate_slope_label {K : Type} [LinearOrderedField K] (log : K → K)
    (sizes times : List K)
    (h : sizes.head? = sizes.getLast? ∨ (∃ t, times.head? = some t ∧ t ≤ 0) ∨
      (∃ t, times.getLast? = some t ∧ t ≤ 0)) :
    (slopeOf log sizes times = .nan ∧ estimateComplexity log sizes times = Label.higher) ∨
    (slopeOf log sizes times = .posInf ∧ estimateComplexity log sizes times = Label.higher) ∨
    (slopeOf log sizes times = .negInf ∧
      estimateComplexity log sizes times = Label.logarithmic) := by
  rw [estimateComplexity_eq_classify]
  rcases slopeOf_degenerate log sizes times h with hs | hs | hs
  · exact Or.inl ⟨hs, by rw [hs, classify_nan]⟩
  · exact Or.inr (Or.inl ⟨hs, by rw [hs, classify_posInf]⟩)
  · exact Or.inr (Or.inr ⟨hs, by rw [hs, classify_negInf]⟩)

theorem C8_degenerate_slope_label_witness :
    (slopeOf Real.log [7] [2, 1] = .nan ∧
      estimateComplexity Real.log [7] [2, 1] = Label.higher) ∨
    (slopeOf Real.log [7] [2, 1] = .posInf ∧
      estimateComplexity Real.log [7] [2, 1] = Label.higher) ∨
    (slopeOf Real.log [7] [2, 1] = .negInf ∧
      estimateComplexity Real.log [7] [2, 1] = Label.logarithmic) :=
  C8_degenerate_slope_label Real.log [7] [2, 1] (Or.inl rfl)

/-- C10: the result of `estimateComplexity` depends only on the first and last entries of
`sizes` and of `times`: two inputs that agree on them get the same label, whatever their
intermediate entries and lengths are. -/
theorem C10_estimateComplexity_only_ends (sizes1 times1 sizes2 times2 : List ℝ)
    (hs0 : sizes1.head? = sizes2.head?) (hs1 : sizes1.getLast? = sizes2.getLast?)
    (ht0 : times1.head? = times2.head?) (ht1 : times1.getLast? = times2.getLast?) :
    estimateComplexity Real.log sizes1 times1 = estimateComplexity Real.log sizes2 times2 :=
  estimateComplexity_ends Real.log sizes1 times1 sizes2 times2 hs0 hs1 ht0 ht1

theorem C10_estimateComplexity_only_ends_witness :
    estimateComplexity Real.log [10, 20, 50, 100] [0.001, 0.5, 0.002, 0.01]
      = estimateComplexity Real.log [10, 100] [0.001, 7, 0.01] :=
  C10_estimateComplexity_only_ends [10, 20, 50, 100] [0.001, 0.5, 0.002, 0.01] [10, 100]
    [0.001, 7, 0.01] rfl rfl rfl rfl

/-! ## Sorted input, short input, termination -/

/-- On integers a sort that leaves a sorted permutation leaves a sorted array as it is. -/
theorem eq_of_sorted_perm (arr out : List Int) (hp : out.Perm arr) (hs : out.Sorted (· ≤ ·))
    (ha : arr.Sorted (· ≤ ·)) : out = arr :=
  List.eq_of_perm_of_sorted hp hs ha

theorem mergeSort_of_sorted (arr : List Int) (ha : arr.Sorted (· ≤ ·)) :
    mergeSort id arr = some arr := by
  obtain ⟨out, h1, h2, h3, _⟩ := mergeSort_spec id arr
  rw [h1, eq_of_sorted_perm arr out h2 h3 ha]

theorem insertionSort_of_sorted (arr : List Int) (ha : arr.Sorted (· ≤ ·)) :
    insertionSort id arr = some arr := by
  obtain ⟨out, h1, h2, h3, _⟩ := insertionSort_spec id arr
  rw [h1, eq_of_sorted_perm arr out h2 h3 ha]

/-- The result of the bounded recursion does not depend on the bound once it exceeds the
length of the array. -/
theorem mergeSortAux_fuel (key : α → Int) : ∀ (fuel1 fuel2 : Nat) (arr : List α),
    arr.length < fuel1 → arr.length < fuel2 →
    mergeSortAux key fuel1 arr = mergeSortAux key fuel2 arr := by
  intro fuel1
  induction fuel1 with
  | zero => intro fuel2 arr h; omega
  | succ fuel1 ih =>
    intro fuel2 arr h1 h2
    cases fuel2 with
    | zero => omega
    | succ fuel2 =>
      unfold mergeSortAux
      by_cases hlen : arr.length > 1
      · have hl : (arr.take (arr.length / 2)).length < arr.length := by
          rw [List.length_take]; omega
        have hr : (arr.drop (arr.length / 2)).length < arr.length := by
          rw [List.length_drop]; omega
        simp only [if_pos hlen]
        rw [ih fuel2 (arr.take (arr.length / 2)) (by omega) (by omega),
          ih fuel2 (arr.drop (arr.length / 2)) (by omega) (by omega)]
      · simp only [if_neg hlen]

/-- C11: merge sort and insertion sort (function and class versions) leave every integer
array that is already in non-decreasing order exactly as it is; consequently a second sort
of the output of a sort changes nothing. -/
theorem C11_sort_idempotent :
    (∀ arr : List Int, arr.Sorted (· ≤ ·) →
      mergeSort id arr = some arr ∧ MergeSort.sort id arr = some arr ∧
      insertionSort id arr = some arr ∧ InsertionSort.sort id arr = some arr) ∧
    (∀ arr : List Int, ∃ out1 out2,
      mergeSort id arr = some out1 ∧ mergeSort id out1 = some out1 ∧
      MergeSort.sort id arr = some out1 ∧ MergeSort.sort id out1 = some out1 ∧
      insertionSort id out1 = some out1 ∧
      insertionSort id arr = some out2 ∧ insertionSort id out2 = some out2 ∧
      InsertionSort.sort id arr = some out2 ∧ InsertionSort.sort id out2 = some out2 ∧
      mergeSort id out2 = some out2) := by
  have hsorted : ∀ arr : List Int, arr.Sorted (· ≤ ·) →
      mergeSort id arr = some arr ∧ MergeSort.sort id arr = some arr ∧
      insertionSort id arr = some arr ∧ InsertionSort.sort id arr = some arr := by
    intro arr ha
    refine ⟨mergeSort_of_sorted arr ha, ?_, insertionSort_of_sorted arr ha, ?_⟩
    · rw [MergeSort.sort_eq_mergeSort]; exact mergeSort_of_sorted arr ha
    · rw [InsertionSort.sort_eq_insertionSort]; exact insertionSort_of_sorted arr ha
  refine ⟨hsorted, ?_⟩
  intro arr
  obtain ⟨out1, h1, _, h3, _⟩ := mergeSort_spec id arr
  obtain ⟨out2, g1, _, g3, _⟩ := insertionSort_spec id arr
  have a1 := hsorted out1 h3
  have a2 := hsorted out2 g3
  exact ⟨out1, out2, h1, a1.1, by rw [MergeSort.sort_eq_mergeSort, h1], a1.2.1, a1.2.2.1,
    g1, a2.2.2.1, by rw [InsertionSort.sort_eq_insertionSort, g1], a2.2.2.2, a2.1⟩

theorem C11_sort_idempotent_witness :
    mergeSort id [1, 2, 2, 5] = some [1, 2, 2, 5] ∧
      MergeSort.sort id [1, 2, 2, 5] = some [1, 2, 2, 5] ∧
      insertionSort id [1, 2, 2, 5] = some [1, 2, 2, 5] ∧
      InsertionSort.sort id [1, 2, 2, 5] = some [1, 2, 2, 5] :=
  C11_sort_idempotent.1 [1, 2, 2, 5] (by decide)

/-- C12: on the empty array and on every single-element array, merge sort and insertion sort
(function and class versions) complete, so that no read or write leaves the bounds of an
array, and the array is unchanged; `performSorting` with a registered name on such an array
returns an array with the same contents. -/
theorem C12_short_arrays :
    (mergeSort id ([] : List Int) = some [] ∧ MergeSort.sort id ([] : List Int) = some [] ∧
      insertionSort id ([] : List Int) = some [] ∧
      InsertionSort.sort id ([] : List Int) = some []) ∧
    (∀ x : Int, mergeSort id [x] = some [x] ∧ MergeSort.sort id [x] = some [x] ∧
      insertionSort id [x] = some [x] ∧ InsertionSort.sort id [x] = some [x]) ∧
    (∀ (h : Heap) (algorithmName : String) (data : Nat) (contents : List Int),
      (algorithmName = "Merge Sort" ∨ algorithmName = "Insertion Sort" ∨
        algorithmName = "TimSort") →
      h[data]? = some contents → contents.length ≤ 1 →
      ∃ h1 result, SortingHandler.performSorting h algorithmName data = .returned (h1, result) ∧
        h1[result]? = some contents ∧ h1[data]? = some contents) := by
  refine ⟨⟨rfl, rfl, rfl, rfl⟩, fun x => ⟨rfl, rfl, rfl, rfl⟩, ?_⟩
  intro h algorithmName data contents hname hd hlen
  have hown : ∃ a, SortingHandler.algorithms algorithmName = .own a := by
    rcases hname with h1 | h1 | h1 <;> subst h1
    · exact ⟨.mergeSort, by decide⟩
    · exact ⟨.insertionSort, by decide⟩
    · exact ⟨.timSort, by decide⟩
  obtain ⟨a, ha⟩ := hown
  obtain ⟨sorted, hs, hrun⟩ := performSorting_own h algorithmName data a contents ha hd
  obtain ⟨out, ho1, ho2, _⟩ := Algorithm.sort_spec a contents
  have hso : sorted = out := by rw [hs] at ho1; exact Option.some.inj ho1
  have hsame : sorted = contents := by
    rw [hso]
    match contents, hlen, ho2 with
    | [], _, hp => exact List.Perm.eq_nil hp
    | [x], _, hp => exact List.perm_singleton.mp hp
  subst hsame
  refine ⟨h ++ [sorted], h.length, hrun, ?_, ?_⟩
  · rw [List.getElem?_append_right (Nat.le_refl _)]; simp
  · have hlt : data < h.length := by
      by_contra hge
      rw [List.getElem?_eq_none (by omega)] at hd
      cases hd
    rw [List.getElem?_append_left hlt, hd]

theorem C12_short_arrays_witness :
    ∃ h1 result, SortingHandler.performSorting [[4, 2], [9]] "Merge Sort" 1
        = .returned (h1, result) ∧
      h1[result]? = some [9] ∧ h1[1]? = some [9] :=
  C12_short_arrays.2.2 [[4, 2], [9]] "Merge Sort" 1 [9] (Or.inl rfl) rfl (by decide)

/-- C18: an array of length `n >= 2` is split at `floor(n / 2)` into a left half of length
`floor(n / 2)` and a right half of length `n - floor(n / 2)`, both non-empty and strictly
shorter than `n`; hence the recursion of merge sort (function and class versions) ends: with
any bound above the length it returns the same sorted array, never running out; an array
of length at most 1 is returned by the first call, which makes no recursive call. -/
theorem C18_mergeSort_terminates (key : α → Int) :
    (∀ arr : List α, 2 ≤ arr.length →
      (arr.take (arr.length / 2)).length = arr.length / 2 ∧
      (arr.drop (arr.length / 2)).length = arr.length - arr.length / 2 ∧
      0 < arr.length / 2 ∧ 0 < arr.length - arr.length / 2 ∧
      arr.length / 2 < arr.length ∧ arr.length - arr.length / 2 < arr.length) ∧
    (∀ (arr : List α) (fuel : Nat), arr.length < fuel →
      ∃ out, mergeSortAux key fuel arr = some out ∧ mergeSort key arr = some out ∧
        MergeSort.sortAux key fuel arr = some out ∧ MergeSort.sort key arr = some out) ∧
    (∀ arr : List α, arr.length ≤ 1 →
      mergeSortAux key 1 arr = some arr ∧ MergeSort.sortAux key 1 arr = some arr) := by
  refine ⟨?_, ?_, ?_⟩
  · intro arr h
    refine ⟨?_, ?_, ?_, ?_, ?_, ?_⟩
    · rw [List.length_take]; omega
    · rw [List.length_drop]
    all_goals omega
  · intro arr fuel hfuel
    obtain ⟨out, h1, _⟩ := mergeSort_spec key arr
    have h2 : mergeSortAux key fuel arr = some out := by
      rw [mergeSortAux_fuel key fuel (arr.length + 1) arr hfuel (Nat.lt_succ_self _)]
      exact h1
    exact ⟨out, h2, h1, by rw [MergeSort.sortAux_eq, h2], by rw [MergeSort.sort_eq_mergeSort, h1]⟩
  · intro arr h
    have hn : ¬ arr.length > 1 := by omega
    have h1 : mergeSortAux key 1 arr = some arr := by
      unfold mergeSortAux; rw [if_neg hn]
    exact ⟨h1, by rw [MergeSort.sortAux_eq, h1]⟩

theorem C18_mergeSort_terminates_witness :
    ∃ out, mergeSortAux id 7 [5, 3, 9, 1] = some out ∧ mergeSort id [5, 3, 9, 1] = some out ∧
      MergeSort.sortAux id 7 [5, 3, 9, 1] = some out ∧ MergeSort.sort id [5, 3, 9, 1] = some out :=
  (C18_mergeSort_terminates id).2.1 [5, 3, 9, 1] 7 (by decide)

section RandomData

variable {K : Type} [LinearOrderedField K] [FloorRing K]

theorem generateRandomData_loop_spec (random : Nat → K) : ∀ (n : Nat) (data : List Int) (c : Nat),
    generateRandomData.loop random n data c
      = (data ++ (List.range n).map (fun i => ⌊random (c + i) * 1000⌋ + 1), c + n) := by
  intro n
  induction n with
  | zero => intro data c; simp [generateRandomData.loop]
  | succ n ih =>
    intro data c
    rw [generateRandomData.loop, ih, List.range_succ_eq_map, List.map_cons, List.map_map]
    have hfun : ((fun i => ⌊random (c + i) * 1000⌋ + 1) ∘ Nat.succ)
        = (fun i => ⌊random (c + 1 + i) * 1000⌋ + 1) := by
      funext i
      simp only [Function.comp, Nat.succ_eq_add_one]
      rw [show c + (i + 1) = c + 1 + i by omega]
    rw [hfun]
    simp only [Nat.add_zero, List.append_assoc, List.singleton_append]
    rw [show c + 1 + n = c + (n + 1) by omega]

/-- The array that `generateRandomData(size)` builds from the draws `c`, `c + 1`, ... -/
theorem generateRandomData_eq (random : Nat → K) (size c : Nat) :
    generateRandomData random size c
      = ((List.range size).map (fun i => ⌊random (c + i) * 1000⌋ + 1), c + size) := by
  rw [generateRandomData, generateRandomData_loop_spec]
  simp

end RandomData

/-! ## Timing -/

section Timing

variable {K : Type} [LinearOrderedField K] {σ : Type}

theorem trialTimes_succ (clock : Nat → K) (number rep t : Nat) :
    trialTimes clock number (rep + 1) t
      = JSNum.div (.fin (clock (t + 1) - clock t)) (.fin (number : K))
        :: trialTimes clock number rep (t + 2) := by
  unfold trialTimes
  rw [List.range_succ_eq_map, List.map_cons, List.map_map]
  congr 1
  apply List.map_congr_left
  intro i _
  simp only [Function.comp, Nat.succ_eq_add_one]
  rw [show t + 2 * (i + 1) = t + 2 + 2 * i by omega]

theorem foldl_min2_fin (l : List K) : ∀ a : K,
    (l.map JSNum.fin).foldl JSNum.min2 (.fin a) = .fin (l.foldl min a) := by
  induction l with
  | nil => intro a; rfl
  | cons x l ih => intro a; simp only [List.map_cons, List.foldl_cons, JSNum.min2, ih]

theorem foldl_min_le (l : List K) : ∀ a : K,
    l.foldl min a ≤ a ∧ (∀ x ∈ l, l.foldl min a ≤ x) ∧ (l.foldl min a = a ∨ l.foldl min a ∈ l) := by
  induction l with
  | nil => intro a; simp
  | cons x l ih =>
    intro a
    obtain ⟨h1, h2, h3⟩ := ih (min a x)
    simp only [List.foldl_cons]
    refine ⟨le_trans h1 (min_le_left _ _), ?_, ?_⟩
    · intro y hy
      rcases List.mem_cons.mp hy with h | h
      · subst h; exact le_trans h1 (min_le_right _ _)
      · exact h2 y h
    · rcases h3 with h | h
      · rcases min_choice a x with hc | hc
        · left; rw [h, hc]
        · right; rw [h, hc]; exact List.mem_cons_self _ _
      · right; exact List.mem_cons_of_mem _ h

/-- The value of `Math.min` on finite numbers, at least one: the least of them. -/
theorem mathMin_fin (x : K) (l : List K) :
    ∃ m, JSNum.mathMin ((x :: l).map JSNum.fin) = .fin m ∧ m ∈ x :: l ∧ ∀ y ∈ x :: l, m ≤ y := by
  refine ⟨l.foldl min x, ?_, ?_, ?_⟩
  · simp only [JSNum.mathMin, List.map_cons, List.foldl_cons, JSNum.min2, foldl_min2_fin]
  · rcases (foldl_min_le l x).2.2 with h | h
    · rw [h]; exact List.mem_cons_self _ _
    · exact List.mem_cons_of_mem _ h
  · intro y hy
    rcases List.mem_cons.mp hy with h | h
    · subst h; exact (foldl_min_le l y).1
    · exact (foldl_min_le l x).2.1 y h

theorem callLoop_spec (func : σ → Completion σ) (f : σ → σ) (P : σ → Prop)
    (hf : ∀ s, P s → func s = .returned (f s) ∧ P (f s)) : ∀ (n : Nat) (s : σ), P s →
    TimeMeasurer.callLoop func n s = .returned (f^[n] s) ∧ P (f^[n] s) := by
  intro n
  induction n with
  | zero => intro s hs; exact ⟨rfl, hs⟩
  | succ n ih =>
    intro s hs
    obtain ⟨h1, h2⟩ := hf s hs
    obtain ⟨h3, h4⟩ := ih (f s) h2
    rw [TimeMeasurer.callLoop, h1, Completion.bind, h3, Function.iterate_succ_apply]
    exact ⟨rfl, h4⟩

theorem trialLoop_spec (clock : Nat → K) (func : σ → Completion σ) (f : σ → σ) (P : σ → Prop)
    (hf : ∀ s, P s → func s = .returned (f s) ∧ P (f s)) (number : Nat) :
    ∀ (r : Nat) (times : List (JSNum K)) (s : σ) (t : Nat), P s →
    TimeMeasurer.trialLoop clock func number r times s t
      = .returned (times ++ trialTimes clock number r t, f^[number * r] s, t + 2 * r) ∧
      P (f^[number * r] s) := by
  intro r
  induction r with
  | zero =>
    intro times s t hs
    simp [TimeMeasurer.trialLoop, trialTimes, hs]
  | succ r ih =>
    intro times s t hs
    obtain ⟨h1, h2⟩ := callLoop_spec func f P hf number s hs
    obtain ⟨h3, h4⟩ := ih (times ++ [JSNum.div (.fin (clock (t + 1) - clock t))
      (.fin (number : K))]) (f^[number] s) (t + 2) h2
    have hiter : f^[number * r] (f^[number] s) = f^[number * (r + 1)] s := by
      rw [← Function.iterate_add_apply, Nat.mul_succ]
    rw [hiter] at h3 h4
    rw [TimeMeasurer.trialLoop]
    simp only [h1, Completion.bind, h3, trialTimes_succ]
    refine ⟨?_, h4⟩
    rw [List.append_assoc, List.singleton_append, show t + 2 + 2 * r = t + 2 * (r + 1) by omega]

/-- When every call of `func` returns, acting as `f` on the state, `measureTime` makes
`number * rep` calls and `2 * rep` readings of the clock and returns the `Math.min` of the
per-call times of the trials. -/
theorem measureTime_spec (clock : Nat → K) (func : σ → Completion σ) (f : σ → σ) (P : σ → Prop)
    (hf : ∀ s, P s → func s = .returned (f s) ∧ P (f s)) (number rep : Nat) (s : σ) (t : Nat)
    (hs : P s) :
    TimeMeasurer.measureTime clock func number rep s t
      = .returned (JSNum.mathMin (trialTimes clock number rep t), f^[number * rep] s,
          t + 2 * rep) ∧
      P (f^[number * rep] s) := by
  obtain ⟨h1, h2⟩ := trialLoop_spec clock func f P hf number rep [] s t hs
  rw [TimeMeasurer.measureTime, h1]
  exact ⟨by simp [Completion.bind], h2⟩

theorem trialTimes_fin (clock : Nat → K) (number rep t : Nat) (hn : 1 ≤ number) :
    trialTimes clock number rep t
      = ((List.range rep).map fun i =>
          (clock (t + 2 * i + 1) - clock (t + 2 * i)) / (number : K)).map JSNum.fin := by
  have hne : (number : K) ≠ 0 := by
    have : (0 : K) < (number : K) := by exact_mod_cast hn
    exact this.ne.symm
  unfold trialTimes
  rw [List.map_map]
  apply List.map_congr_left
  intro i _
  simp [JSNum.div, hne]

/-- With `number >= 1` and `rep >= 1` and a `func` that returns, `measureTime` returns the
least of the per-call times `(end - start) / number` of the trials. -/
theorem measureTime_min (clock : Nat → K) (f : σ → σ) (number rep : Nat) (s : σ) (t : Nat)
    (hn : 1 ≤ number) (hr : 1 ≤ rep) :
    ∃ m, TimeMeasurer.measureTime clock (fun s => Completion.returned (f s)) number rep s t
        = .returned (.fin m, f^[number * rep] s, t + 2 * rep) ∧
      m ∈ (List.range rep).map
        (fun i => (clock (t + 2 * i + 1) - clock (t + 2 * i)) / (number : K)) ∧
      ∀ x ∈ (List.range rep).map
        (fun i => (clock (t + 2 * i + 1) - clock (t + 2 * i)) / (number : K)), m ≤ x := by
  have hspec := (measureTime_spec clock (fun s => Completion.returned (f s)) f (fun _ => True)
    (fun s _ => ⟨rfl, trivial⟩) number rep s t trivial).1
  rw [trialTimes_fin clock number rep t hn] at hspec
  cases hlist : (List.range rep).map
      (fun i => (clock (t + 2 * i + 1) - clock (t + 2 * i)) / (number : K)) with
  | nil =>
    have hlen := congrArg List.length hlist
    simp at hlen
    omega
  | cons x l =>
    rw [hlist] at hspec
    obtain ⟨m, hm1, hm2, hm3⟩ := mathMin_fin x l
    rw [hm1] at hspec
    exact ⟨m, hspec, hm2, hm3⟩

end Timing

/-- C17 (failing input): with a clock in milliseconds on which every trial of 10 calls takes
500 ms, that is 50 ms per call, `measureTime` returns 50, the per-call time in milliseconds,
not `500 / 10 / 1000 = 0.05`; `runSortingAlgorithm` on a call that takes 50 ms returns
`50 / 1000 = 0.05`. -/
theorem C17_measureTime_in_milliseconds :
    TimeMeasurer.measureTime (fun t => 500 * (t : ℚ)) (fun s : Unit => Completion.returned s)
        10 3 () 0 = .returned (.fin 50, (), 6) ∧
    (JSNum.fin (50 : ℚ) ≠ .fin (500 / 10 / 1000)) ∧
    runSortingAlgorithm (fun t => 50 * (t : ℚ)) (fun _ => 0) "Merge Sort" .mergeSort 0
        ⟨[], 0, 0, []⟩ = .returned (.fin (50 / 1000), ⟨[], 2, 0, [("Merge Sort", [])]⟩) := by
  refine ⟨?_, ?_, ?_⟩
  · obtain ⟨m, h1, h2, _⟩ := measureTime_min (fun t => 500 * (t : ℚ)) (fun s : Unit => s) 10 3
      () 0 (by decide) (by decide)
    have hm : m = 50 := by
      simp only [List.mem_map, List.mem_range] at h2
      obtain ⟨i, _, hi⟩ := h2
      rw [← hi]
      push_cast
      ring
    rw [hm] at h1
    simpa using h1
  · intro h
    have h2 : (50 : ℚ) = 500 / 10 / 1000 := by injection h
    norm_num at h2
  · have hgen : generateRandomData (fun _ => (0 : ℚ)) 0 0 = ([], 0) := rfl
    have hsort : Algorithm.func .mergeSort [] = some [] := rfl
    simp only [runSortingAlgorithm, hgen, hsort]
    norm_num [JSNum.div]

/-! ## The class-based runner -/

section ClassRunner

variable {K : Type} [LinearOrderedField K]

/-- One call of `performSorting` through `sortCall`, on a registered name and an array of
the heap: a sorted copy is allocated and nothing else changes. -/
theorem sortCall_own (algorithm : String) (data : Nat) (a : Algorithm) (contents : List Int)
    (ha : SortingHandler.algorithms algorithm = .own a) :
    ∃ sorted, ∀ w : World, w.heap[data]? = some contents →
      MainProgram.sortCall algorithm data w
        = .returned ⟨w.heap ++ [sorted], w.clockReads, w.randomDraws,
            w.inputs ++ [(algorithm, contents)]⟩ := by
  obtain ⟨sorted, hs, _, _⟩ := Algorithm.sort_spec a contents
  refine ⟨sorted, ?_⟩
  intro w hd
  obtain ⟨sorted1, hs1, hrun⟩ := performSorting_own w.heap algorithm data a contents ha hd
  have : sorted1 = sorted := by rw [hs] at hs1; exact (Option.some.inj hs1).symm
  subst this
  simp only [MainProgram.sortCall, hrun, hd, Option.getD_some]

theorem iterate_sortCall (sorted : List Int) (entry : String × List Int) :
    ∀ (n : Nat) (w : World),
    (fun w : World => (⟨w.heap ++ [sorted], w.clockReads, w.randomDraws,
        w.inputs ++ [entry]⟩ : World))^[n] w
      = ⟨w.heap ++ List.replicate n sorted, w.clockReads, w.randomDraws,
          w.inputs ++ List.replicate n entry⟩ := by
  intro n
  induction n with
  | zero => intro w; simp
  | succ n ih =>
    intro w
    rw [Function.iterate_succ_apply, ih]
    simp [List.replicate_succ]

/-- The measurement of one algorithm in `run`: 30 calls, 6 readings of the clock. -/
theorem measure_sortCall (clock : Nat → K) (algorithm : String) (data : Nat) (a : Algorithm)
    (contents : List Int) (ha : SortingHandler.algorithms algorithm = .own a) :
    ∃ sorted, ∀ (w : World) (t : Nat), w.heap[data]? = some contents →
      TimeMeasurer.measureTime clock (MainProgram.sortCall algorithm data) 10 3 w t
        = .returned (JSNum.mathMin (trialTimes clock 10 3 t),
            ⟨w.heap ++ List.replicate 30 sorted, w.clockReads, w.randomDraws,
              w.inputs ++ List.replicate 30 (algorithm, contents)⟩, t + 6) := by
  obtain ⟨sorted, hcall⟩ := sortCall_own algorithm data a contents ha
  refine ⟨sorted, ?_⟩
  intro w t hd
  have hf : ∀ s : World, s.heap[data]? = some contents →
      MainProgram.sortCall algorithm data s
        = .returned ((fun w : World => (⟨w.heap ++ [sorted], w.clockReads, w.randomDraws,
            w.inputs ++ [(algorithm, contents)]⟩ : World)) s) ∧
      ((fun w : World => (⟨w.heap ++ [sorted], w.clockReads, w.randomDraws,
            w.inputs ++ [(algorithm, contents)]⟩ : World)) s).heap[data]? = some contents := by
    intro s hs
    refine ⟨hcall s hs, ?_⟩
    have hlt : data < s.heap.length := by
      by_contra hge
      rw [List.getElem?_eq_none (by omega)] at hs
      cases hs
    show (s.heap ++ [sorted])[data]? = some contents
    rw [List.getElem?_append_left hlt, hs]
  have h := (measureTime_spec clock (MainProgram.sortCall algorithm data) _
    (fun s : World => s.heap[data]? = some contents) hf 10 3 w t hd).1
  rw [h, iterate_sortCall]

theorem getElem?_append_of_some {β : Type} (l extra : List β) (i : Nat) (x : β)
    (h : l[i]? = some x) : (l ++ extra)[i]? = some x := by
  have hlt : i < l.length := by
    by_contra hge
    rw [List.getElem?_eq_none (by omega)] at h
    cases h
  rw [List.getElem?_append_left hlt, h]

/-- The `forEach` of `run` for one size: one measurement is appended for each algorithm, and
every sorting call is given the contents of `data`. -/
theorem runAlgorithms_step (clock : Nat → K) (data : Nat) (contents : List Int) :
    ∃ extra : List (List Int), ∀ (a b c : List (JSNum K)) (w : World),
      w.heap[data]? = some contents →
      MainProgram.runAlgorithms clock data SortingHandler.algorithmKeys
          [("Merge Sort", a), ("Insertion Sort", b), ("TimSort", c)] w
        = .returned
          ([("Merge Sort", a ++ [JSNum.mathMin (trialTimes clock 10 3 w.clockReads)]),
            ("Insertion Sort", b ++ [JSNum.mathMin (trialTimes clock 10 3 (w.clockReads + 6))]),
            ("TimSort", c ++ [JSNum.mathMin (trialTimes clock 10 3 (w.clockReads + 12))])],
           ⟨w.heap ++ extra, w.clockReads + 18, w.randomDraws,
            w.inputs ++ (List.replicate 30 ("Merge Sort", contents) ++
              List.replicate 30 ("Insertion Sort", contents) ++
              List.replicate 30 ("TimSort", contents))⟩) := by
  obtain ⟨s1, h1⟩ := measure_sortCall clock "Merge Sort" data .mergeSort contents (by decide)
  obtain ⟨s2, h2⟩ := measure_sortCall clock "Insertion Sort" data .insertionSort contents
    (by decide)
  obtain ⟨s3, h3⟩ := measure_sortCall clock "TimSort" data .timSort contents (by decide)
  refine ⟨List.replicate 30 s1 ++ List.replicate 30 s2 ++ List.replicate 30 s3, ?_⟩
  intro a b c w hd
  have hd1 := getElem?_append_of_some w.heap (List.replicate 30 s1) data contents hd
  have hd2 := getElem?_append_of_some _ (List.replicate 30 s2) data contents hd1
  simp only [SortingHandler.algorithmKeys, MainProgram.runAlgorithms]
  rw [h1 w w.clockReads hd]
  simp only [Completion.bind, pushResult, if_true]
  rw [h2 _ _ hd1]
  simp only [Completion.bind, pushResult, if_true]
  rw [h3 _ _ hd2]
  simp [Completion.bind, pushResult]

theorem classMeasurements_succ (clock : Nat → K) (n t k : Nat) :
    classMeasurements clock (n + 1) t k
      = JSNum.mathMin (trialTimes clock 10 3 (t + 6 * k))
        :: classMeasurements clock n (t + 18) k := by
  unfold classMeasurements
  rw [List.range_succ_eq_map, List.map_cons, List.map_map]
  congr 1
  apply List.map_congr_left
  intro i _
  simp only [Function.comp, Nat.succ_eq_add_one]
  rw [show t + 18 * (i + 1) + 6 * k = t + 18 + 18 * i + 6 * k by omega]

theorem classMeasurements_length (clock : Nat → K) (n t k : Nat) :
    (classMeasurements clock n t k).length = n := by
  simp [classMeasurements]

theorem funcMeasurements_succ (clock : Nat → K) (n t : Nat) :
    funcMeasurements clock (n + 1) t
      = JSNum.div (.fin (clock (t + 1) - clock t)) (.fin 1000)
        :: funcMeasurements clock n (t + 2) := by
  unfold funcMeasurements
  rw [List.range_succ_eq_map, List.map_cons, List.map_map]
  congr 1
  apply List.map_congr_left
  intro i _
  simp only [Function.comp, Nat.succ_eq_add_one]
  rw [show t + 2 * (i + 1) = t + 2 + 2 * i by omega]

theorem funcMeasurements_length (clock : Nat → K) (n t : Nat) :
    (funcMeasurements clock n t).length = n := by
  simp [funcMeasurements]

theorem funcMeasurements_getElem? (clock : Nat → K) (n t i : Nat) (hi : i < n) :
    (funcMeasurements clock n t)[i]?
      = some (JSNum.div (.fin (clock (t + 2 * i + 1) - clock (t + 2 * i))) (.fin 1000)) := by
  simp [funcMeasurements, List.getElem?_map, List.getElem?_range hi]

theorem classMeasurements_getElem? (clock : Nat → K) (n t k i : Nat) (hi : i < n) :
    (classMeasurements clock n t k)[i]?
      = some (JSNum.mathMin (trialTimes clock 10 3 (t + 18 * i + 6 * k))) := by
  simp [classMeasurements, List.getElem?_map, List.getElem?_range hi]

variable [FloorRing K]

/-- The loop of `run` over the sizes, from any contents `a`, `b`, `c` of the three result
sequences: the measurements of the sizes are appended in order, one data set is drawn per
size, and every sorting call for a size is given that data set. -/
theorem runSizes_spec (clock random : Nat → K) : ∀ (sizes : List Nat) (a b c : List (JSNum K))
    (w : World), ∃ extra : List (List Int),
    MainProgram.runSizes clock random sizes
        [("Merge Sort", a), ("Insertion Sort", b), ("TimSort", c)] w
      = .returned
        ([("Merge Sort", a ++ classMeasurements clock sizes.length w.clockReads 0),
          ("Insertion Sort", b ++ classMeasurements clock sizes.length w.clockReads 1),
          ("TimSort", c ++ classMeasurements clock sizes.length w.clockReads 2)],
         ⟨w.heap ++ extra, w.clockReads + 18 * sizes.length, w.randomDraws + sizes.sum,
          w.inputs ++ classInputs random sizes w.randomDraws⟩) := by
  intro sizes
  induction sizes with
  | nil =>
    intro a b c w
    refine ⟨[], ?_⟩
    simp [MainProgram.runSizes, classMeasurements, classInputs]
  | cons size rest ih =>
    intro a b c w
    obtain ⟨extra1, hstep⟩ := runAlgorithms_step clock w.heap.length (dataSet random size
      w.randomDraws)
    have hgen2 : (generateRandomData random size w.randomDraws).2 = w.randomDraws + size := by
      rw [generateRandomData_eq]
    have hcell : (w.heap ++ [dataSet random size w.randomDraws])[w.heap.length]?
        = some (dataSet random size w.randomDraws) := by
      rw [List.getElem?_append_right (Nat.le_refl _)]; simp
    have h1 := hstep a b c ⟨w.heap ++ [dataSet random size w.randomDraws], w.clockReads,
      w.randomDraws + size, w.inputs⟩ hcell
    obtain ⟨extra2, h2⟩ := ih
      (a ++ [JSNum.mathMin (trialTimes clock 10 3 w.clockReads)])
      (b ++ [JSNum.mathMin (trialTimes clock 10 3 (w.clockReads + 6))])
      (c ++ [JSNum.mathMin (trialTimes clock 10 3 (w.clockReads + 12))])
      ⟨w.heap ++ [dataSet random size w.randomDraws] ++ extra1, w.clockReads + 18,
        w.randomDraws + size,
        w.inputs ++ (List.replicate 30 ("Merge Sort", dataSet random size w.randomDraws) ++
          List.replicate 30 ("Insertion Sort", dataSet random size w.randomDraws) ++
          List.replicate 30 ("TimSort", dataSet random size w.randomDraws))⟩
    refine ⟨[dataSet random size w.randomDraws] ++ extra1 ++ extra2, ?_⟩
    rw [MainProgram.runSizes]
    simp only [hgen2]
    have hds : (generateRandomData random size w.randomDraws).1
        = dataSet random size w.randomDraws := rfl
    rw [hds, h1]
    simp only [Completion.bind]
    rw [h2]
    simp only [classMeasurements_succ, classInputs, List.length_cons, List.sum_cons,
      List.append_assoc, List.singleton_append, Nat.mul_zero, Nat.add_zero, Nat.mul_one]
    rw [show w.clockReads + 6 * 2 = w.clockReads + 12 from rfl,
      show w.clockReads + 18 * (rest.length + 1) = w.clockReads + 18 + 18 * rest.length by omega,
      show w.randomDraws + (size + rest.sum) = w.randomDraws + size + rest.sum by omega]

/-- One call of `run` on an object whose result sequences are `a`, `b`, `c`. -/
theorem run_spec (clock random : Nat → K) (returnResults : Bool) (sizes : List Nat)
    (a b c : List (JSNum K)) (w : World) :
    ∃ extra : List (List Int),
    MainProgram.run clock random returnResults
        ⟨sizes, [("Merge Sort", a), ("Insertion Sort", b), ("TimSort", c)]⟩ w
      = .returned
        (if returnResults then
            some [("Merge Sort", a ++ classMeasurements clock sizes.length w.clockReads 0),
              ("Insertion Sort", b ++ classMeasurements clock sizes.length w.clockReads 1),
              ("TimSort", c ++ classMeasurements clock sizes.length w.clockReads 2)]
          else none,
         ⟨sizes, [("Merge Sort", a ++ classMeasurements clock sizes.length w.clockReads 0),
            ("Insertion Sort", b ++ classMeasurements clock sizes.length w.clockReads 1),
            ("TimSort", c ++ classMeasurements clock sizes.length w.clockReads 2)]⟩,
         ⟨w.heap ++ extra, w.clockReads + 18 * sizes.length, w.randomDraws + sizes.sum,
          w.inputs ++ classInputs random sizes w.randomDraws⟩) := by
  obtain ⟨extra, h⟩ := runSizes_spec clock random sizes a b c w
  refine ⟨extra, ?_⟩
  simp only [MainProgram.run, h, Completion.bind]

/-- After `k` calls of `run` on a new object every result sequence has `k * n` entries. -/
theorem runTimes_spec (clock random : Nat → K) (sizes : List Nat) : ∀ (k : Nat)
    (a b c : List (JSNum K)) (w : World),
    ∃ (a1 b1 c1 : List (JSNum K)) (w1 : World),
      MainProgram.runTimes clock random k
          ⟨sizes, [("Merge Sort", a), ("Insertion Sort", b), ("TimSort", c)]⟩ w
        = .returned (⟨sizes, [("Merge Sort", a ++ a1), ("Insertion Sort", b ++ b1),
            ("TimSort", c ++ c1)]⟩, w1) ∧
      a1.length = k * sizes.length ∧ b1.length = k * sizes.length ∧
      c1.length = k * sizes.length := by
  intro k
  induction k with
  | zero =>
    intro a b c w
    exact ⟨[], [], [], w, by simp [MainProgram.runTimes], by simp, by simp, by simp⟩
  | succ k ih =>
    intro a b c w
    obtain ⟨extra, h⟩ := run_spec clock random false sizes a b c w
    obtain ⟨a1, b1, c1, w1, h1, ha, hb, hc⟩ := ih
      (a ++ classMeasurements clock sizes.length w.clockReads 0)
      (b ++ classMeasurements clock sizes.length w.clockReads 1)
      (c ++ classMeasurements clock sizes.length w.clockReads 2)
      ⟨w.heap ++ extra, w.clockReads + 18 * sizes.length, w.randomDraws + sizes.sum,
        w.inputs ++ classInputs random sizes w.randomDraws⟩
    refine ⟨classMeasurements clock sizes.length w.clockReads 0 ++ a1,
      classMeasurements clock sizes.length w.clockReads 1 ++ b1,
      classMeasurements clock sizes.length w.clockReads 2 ++ c1, w1, ?_, ?_, ?_, ?_⟩
    · rw [MainProgram.runTimes, h]
      simp only [Completion.bind]
      rw [h1]
      simp only [List.append_assoc]
    · rw [List.length_append, classMeasurements_length, ha, Nat.succ_mul]; omega
    · rw [List.length_append, classMeasurements_length, hb, Nat.succ_mul]; omega
    · rw [List.length_append, classMeasurements_length, hc, Nat.succ_mul]; omega

end ClassRunner

/-! ## The function-based runner -/

section FuncRunner

variable {K : Type} [LinearOrderedField K] [FloorRing K]

theorem Algorithm.func_total (a : Algorithm) (arr : List Int) : ∃ out, a.func arr = some out := by
  cases a with
  | mergeSort =>
    obtain ⟨out, h, _⟩ := mergeSort_spec id arr
    exact ⟨out, h⟩
  | insertionSort =>
    obtain ⟨out, h, _⟩ := insertionSort_spec id arr
    exact ⟨out, h⟩
  | timSort => exact ⟨_, rfl⟩

/-- One call of `runSortingAlgorithm`: it draws its own data set, reads the clock twice and
returns the difference divided by 1000. -/
theorem runSortingAlgorithm_spec (clock random : Nat → K) (algName : String)
    (algorithm : Algorithm) (size : Nat) (w : World) :
    runSortingAlgorithm clock random algName algorithm size w
      = .returned
        (JSNum.div (.fin (clock (w.clockReads + 1) - clock w.clockReads)) (.fin 1000),
         ⟨w.heap, w.clockReads + 2, w.randomDraws + size,
          w.inputs ++ [(algName, dataSet random size w.randomDraws)]⟩) := by
  obtain ⟨out, hout⟩ := Algorithm.func_total algorithm (dataSet random size w.randomDraws)
  have hgen2 : (generateRandomData random size w.randomDraws).2 = w.randomDraws + size := by
    rw [generateRandomData_eq]
  have hds : (generateRandomData random size w.randomDraws).1
      = dataSet random size w.randomDraws := rfl
  simp only [runSortingAlgorithm, hgen2, hds, hout]

/-- The inner loop of `main` for one algorithm. -/
theorem sizeLoop_spec (clock random : Nat → K) (algName : String) (algFunc : Algorithm) :
    ∀ (sizes : List Nat) (times : List (JSNum K)) (w : World),
    main.sizeLoop clock random algName algFunc sizes times w
      = .returned
        (times ++ funcMeasurements clock sizes.length w.clockReads,
         ⟨w.heap, w.clockReads + 2 * sizes.length, w.randomDraws + sizes.sum,
          w.inputs ++ funcInputs random algName sizes w.randomDraws⟩) := by
  intro sizes
  induction sizes with
  | nil => intro times w; simp [main.sizeLoop, funcMeasurements, funcInputs]
  | cons size rest ih =>
    intro times w
    rw [main.sizeLoop, runSortingAlgorithm_spec]
    simp only [Completion.bind]
    rw [ih]
    simp only [funcMeasurements_succ, funcInputs, List.length_cons, List.sum_cons,
      List.append_assoc, List.singleton_append]
    rw [show w.clockReads + 2 * (rest.length + 1) = w.clockReads + 2 + 2 * rest.length by omega,
      show w.randomDraws + (size + rest.sum) = w.randomDraws + size + rest.sum by omega]

/-- The whole of `main`: each algorithm in turn measures every size on a data set of its
own. -/
theorem main_spec (clock random : Nat → K) (dataSizes : List Nat) (returnResults : Bool)
    (w : World) :
    main clock random dataSizes returnResults w
      = .returned
        (if returnResults then
            some [("Merge Sort", funcMeasurements clock dataSizes.length w.clockReads),
              ("Insertion Sort",
                funcMeasurements clock dataSizes.length (w.clockReads + 2 * dataSizes.length)),
              ("TimSort",
                funcMeasurements clock dataSizes.length (w.clockReads + 4 * dataSizes.length))]
          else none,
         ⟨w.heap, w.clockReads + 6 * dataSizes.length, w.randomDraws + 3 * dataSizes.sum,
          w.inputs ++ (funcInputs random "Merge Sort" dataSizes w.randomDraws ++
            funcInputs random "Insertion Sort" dataSizes (w.randomDraws + dataSizes.sum) ++
            funcInputs random "TimSort" dataSizes (w.randomDraws + 2 * dataSizes.sum))⟩) := by
  simp only [main, algorithms, main.algorithmLoop, sizeLoop_spec, Completion.bind,
    assignResult, List.nil_append]
  simp only [List.append_assoc]
  have e1 : w.clockReads + 2 * dataSizes.length + 2 * dataSizes.length
      = w.clockReads + 4 * dataSizes.length := by omega
  have e2 : w.clockReads + 4 * dataSizes.length + 2 * dataSizes.length
      = w.clockReads + 6 * dataSizes.length := by omega
  have e3 : w.randomDraws + dataSizes.sum + dataSizes.sum
      = w.randomDraws + 2 * dataSizes.sum := by omega
  have e4 : w.randomDraws + 2 * dataSizes.sum + dataSizes.sum
      = w.randomDraws + 3 * dataSizes.sum := by omega
  simp [e1, e2, e3, e4]

end FuncRunner

/-! ## Claims on the runners -/

/-- C14: for every list `dataSizes`, one run that returns its results, `MainProgram.run` on
a new `MainProgram` and `main` of sortFunc.js alike, completes with a mapping that has
exactly the keys `Merge Sort`, `Insertion Sort`, `TimSort`, in this order, each with a
sequence of `len(dataSizes)` entries, the entry number `i` being the measurement taken for
the size number `i`: in `run` the `measureTime` value of the readings that start at
`t + 18 * i + 6 * k` for the algorithm number `k`, in `main` the difference of the readings
`t + 2 * (k * n + i)` and the next one, divided by 1000. -/
theorem C14_run_results (clock random : Nat → ℝ) (dataSizes : List Nat) (w : World) :
    (∃ results w1,
      MainProgram.run clock random true (MainProgram.new dataSizes) w
        = .returned (some results, ⟨dataSizes, results⟩, w1) ∧
      results.map Prod.fst = ["Merge Sort", "Insertion Sort", "TimSort"] ∧
      (∀ entry ∈ results, entry.2.length = dataSizes.length) ∧
      ∀ k name, ["Merge Sort", "Insertion Sort", "TimSort"][k]? = some name →
        ∀ i, i < dataSizes.length → (results.get name)[i]?
          = some (JSNum.mathMin (trialTimes clock 10 3 (w.clockReads + 18 * i + 6 * k)))) ∧
    (∃ results w1,
      main clock random dataSizes true w = .returned (some results, w1) ∧
      results.map Prod.fst = ["Merge Sort", "Insertion Sort", "TimSort"] ∧
      (∀ entry ∈ results, entry.2.length = dataSizes.length) ∧
      ∀ k name, ["Merge Sort", "Insertion Sort", "TimSort"][k]? = some name →
        ∀ i, i < dataSizes.length → (results.get name)[i]?
          = some (JSNum.div
              (.fin (clock (w.clockReads + 2 * (k * dataSizes.length + i) + 1)
                - clock (w.clockReads + 2 * (k * dataSizes.length + i))))
              (.fin 1000))) := by
  constructor
  · obtain ⟨extra, h⟩ := run_spec clock random true dataSizes [] [] [] w
    refine ⟨_, _, h, by simp, ?_, ?_⟩
    · intro entry hentry
      simp only [List.nil_append, List.mem_cons, List.mem_singleton, List.not_mem_nil,
        or_false] at hentry
      rcases hentry with h1 | h1 | h1 <;> subst h1 <;> exact classMeasurements_length _ _ _ _
    · intro k name hk i hi
      have hk3 : k = 0 ∨ k = 1 ∨ k = 2 := by
        have : k < 3 := by
          by_contra hge
          rw [List.getElem?_eq_none (by simp; omega)] at hk
          cases hk
        omega
      rcases hk3 with h0 | h0 | h0 <;> subst h0 <;> simp at hk <;> subst hk <;>
        simp only [Results.get, List.find?, List.nil_append, decide_True, decide_False,
          String.reduceEq] <;>
        exact classMeasurements_getElem? clock _ _ _ i hi
  · have h := main_spec clock random dataSizes true w
    refine ⟨_, _, h, by simp, ?_, ?_⟩
    · intro entry hentry
      simp only [List.mem_cons, List.mem_singleton, List.not_mem_nil, or_false] at hentry
      rcases hentry with h1 | h1 | h1 <;> subst h1 <;> exact funcMeasurements_length _ _ _
    · intro k name hk i hi
      have hk3 : k = 0 ∨ k = 1 ∨ k = 2 := by
        have : k < 3 := by
          by_contra hge
          rw [List.getElem?_eq_none (by simp; omega)] at hk
          cases hk
        omega
      rcases hk3 with h0 | h0 | h0 <;> subst h0 <;> simp at hk <;> subst hk
      · simp only [Results.get, List.find?, decide_True, decide_False, String.reduceEq]
        rw [funcMeasurements_getElem? clock _ _ i hi,
          show w.clockReads + 2 * (0 * dataSizes.length + i) = w.clockReads + 2 * i by omega]
      · simp only [Results.get, List.find?, decide_True, decide_False, String.reduceEq]
        rw [funcMeasurements_getElem? clock _ _ i hi,
          show w.clockReads + 2 * (1 * dataSizes.length + i)
            = w.clockReads + 2 * dataSizes.length + 2 * i by omega]
      · simp only [Results.get, List.find?, decide_True, decide_False, String.reduceEq]
        rw [funcMeasurements_getElem? clock _ _ i hi,
          show w.clockReads + 2 * (2 * dataSizes.length + i)
            = w.clockReads + 4 * dataSizes.length + 2 * i by omega]

theorem C14_run_results_witness :
    (∃ results w1,
      MainProgram.run (fun t => (t : ℝ)) (fun _ => (1 / 2 : ℝ)) true
          (MainProgram.new [10, 100, 1000]) ⟨[], 0, 0, []⟩
        = .returned (some results, ⟨[10, 100, 1000], results⟩, w1) ∧
      results.map Prod.fst = ["Merge Sort", "Insertion Sort", "TimSort"] ∧
      ∀ entry ∈ results, entry.2.length = 3) ∧
    (∃ results w1,
      main (fun t => (t : ℝ)) (fun _ => (1 / 2 : ℝ)) [10, 100, 1000] true ⟨[], 0, 0, []⟩
        = .returned (some results, w1) ∧
      results.map Prod.fst = ["Merge Sort", "Insertion Sort", "TimSort"] ∧
      ∀ entry ∈ results, entry.2.length = 3) :=
  match C14_run_results (fun t => (t : ℝ)) (fun _ => (1 / 2 : ℝ)) [10, 100, 1000]
    ⟨[], 0, 0, []⟩ with
  | ⟨⟨r1, w1, h1, h2, h3, _⟩, ⟨r2, w2, g1, g2, g3, _⟩⟩ =>
    ⟨⟨r1, w1, h1, h2, h3⟩, ⟨r2, w2, g1, g2, g3⟩⟩

/-- C15 (counterexample): `main` of sortFunc.js on the one size 1, with the draws 0, 0.1, 0.2,
makes three draws, one data set for each algorithm, and the three algorithms are given the
different arrays `[1]`, `[101]` and `[201]`. -/
theorem C15_main_draws_data_per_algorithm :
    main (fun t => (t : ℚ)) (fun c => (c : ℚ) / 10) [1] true ⟨[], 0, 0, []⟩
      = .returned
        (some [("Merge Sort", [.fin (1 / 1000)]), ("Insertion Sort", [.fin (1 / 1000)]),
          ("TimSort", [.fin (1 / 1000)])],
         ⟨[], 6, 3, [("Merge Sort", [1]), ("Insertion Sort", [101]), ("TimSort", [201])]⟩) := by
  rw [main_spec]
  have hr : List.range 1 = [0] := rfl
  simp only [funcMeasurements, funcInputs, dataSet, generateRandomData_eq, List.length_singleton,
    List.sum_singleton, hr, List.map_cons, List.map_nil, List.nil_append,
    List.singleton_append, List.cons_append, if_true]
  norm_num [JSNum.div]

/-- C15 (amended): in `MainProgram.run`, for each requested size exactly one data set is
drawn and that data set is the input of every sorting call for that size, 30 calls for each
of the three algorithms, each call sorting a copy of its own; in `main` of sortFunc.js a new
data set is drawn for every algorithm and size, three for each size, and the algorithms are
given the data sets of their own. -/
theorem C15_data_sets_per_runner (clock random : Nat → ℝ) (dataSizes : List Nat)
    (returnResults : Bool) (w : World) :
    (∃ value program extra,
      MainProgram.run clock random returnResults (MainProgram.new dataSizes) w
        = .returned (value, program,
            ⟨w.heap ++ extra, w.clockReads + 18 * dataSizes.length,
              w.randomDraws + dataSizes.sum,
              w.inputs ++ classInputs random dataSizes w.randomDraws⟩)) ∧
    (∃ value,
      main clock random dataSizes returnResults w
        = .returned (value,
            ⟨w.heap, w.clockReads + 6 * dataSizes.length, w.randomDraws + 3 * dataSizes.sum,
              w.inputs ++ (funcInputs random "Merge Sort" dataSizes w.randomDraws ++
                funcInputs random "Insertion Sort" dataSizes (w.randomDraws + dataSizes.sum) ++
                funcInputs random "TimSort" dataSizes
                  (w.randomDraws + 2 * dataSizes.sum))⟩)) ∧
    (∀ (size : Nat) (rest : List Nat) (c : Nat),
      classInputs random (size :: rest) c
          = List.replicate 30 ("Merge Sort", (generateRandomData random size c).1) ++
            List.replicate 30 ("Insertion Sort", (generateRandomData random size c).1) ++
            List.replicate 30 ("TimSort", (generateRandomData random size c).1) ++
            classInputs random rest (c + size) ∧
      ∀ algName, funcInputs random algName (size :: rest) c
          = (algName, (generateRandomData random size c).1)
            :: funcInputs random algName rest (c + size)) := by
  refine ⟨?_, ⟨_, main_spec clock random dataSizes returnResults w⟩, ?_⟩
  · obtain ⟨extra, h⟩ := run_spec clock random returnResults dataSizes [] [] [] w
    exact ⟨_, _, extra, h⟩
  · intro size rest c
    exact ⟨rfl, fun _ => rfl⟩

/-- C20: `MainProgram.run` appends to the results kept on the object: a call adds exactly
`len(dataSizes)` measurements at the end of the sequence of every algorithm and leaves the
entries `a`, `b`, `c` that were there as they are, so that after `k` calls of `run` on one
new `MainProgram` every sequence has `k * len(dataSizes)` entries. -/
theorem C20_run_appends (clock random : Nat → ℝ) (dataSizes : List Nat)
    (a b c : List (JSNum ℝ)) (w : World) :
    (∃ a1 b1 c1 w1,
      MainProgram.run clock random false
          ⟨dataSizes, [("Merge Sort", a), ("Insertion Sort", b), ("TimSort", c)]⟩ w
        = .returned (none,
            ⟨dataSizes, [("Merge Sort", a ++ a1), ("Insertion Sort", b ++ b1),
              ("TimSort", c ++ c1)]⟩, w1) ∧
      a1.length = dataSizes.length ∧ b1.length = dataSizes.length ∧
      c1.length = dataSizes.length) ∧
    (∀ k, ∃ a1 b1 c1 w1,
      MainProgram.runTimes clock random k (MainProgram.new dataSizes) w
        = .returned (⟨dataSizes, [("Merge Sort", a1), ("Insertion Sort", b1),
            ("TimSort", c1)]⟩, w1) ∧
      a1.length = k * dataSizes.length ∧ b1.length = k * dataSizes.length ∧
      c1.length = k * dataSizes.length) := by
  constructor
  · obtain ⟨extra, h⟩ := run_spec clock random false dataSizes a b c w
    exact ⟨_, _, _, _, h, classMeasurements_length _ _ _ _, classMeasurements_length _ _ _ _,
      classMeasurements_length _ _ _ _⟩
  · intro k
    obtain ⟨a1, b1, c1, w1, h, ha, hb, hc⟩ := runTimes_spec clock random dataSizes k [] [] [] w
    exact ⟨a1, b1, c1, w1, by simpa using h, ha, hb, hc⟩

theorem C20_run_appends_witness :
    ∃ a1 b1 c1 w1,
      MainProgram.runTimes (fun t => (t : ℝ)) (fun _ => (1 / 2 : ℝ)) 2
          (MainProgram.new [10, 100]) ⟨[], 0, 0, []⟩
        = .returned (⟨[10, 100], [("Merge Sort", a1), ("Insertion Sort", b1),
            ("TimSort", c1)]⟩, w1) ∧
      a1.length = 2 * 2 ∧ b1.length = 2 * 2 ∧ c1.length = 2 * 2 :=
  (C20_run_appends (fun t => (t : ℝ)) (fun _ => (1 / 2 : ℝ)) [10, 100] [] [] []
    ⟨[], 0, 0, []⟩).2 2

end SortBench
